import Mathlib

/-!
Shallow embedding of the smart-pointer library in `smart_pointers.cpp`.

The C++ source manages three kinds of handles:

* `UniquePtr<T, Deleter>` : a raw pointer `ptr_` plus a by-value deleter;
  `delete_()` invokes the deleter once if `ptr_` is non-null and nulls it.
* `SharedPtr<T>` : a raw pointer `ptr_` plus a pointer `refCount_` to a
  heap-allocated `std::atomic<int>`; every constructor from a raw pointer
  (including the default constructor) allocates a fresh count initialised
  to 1; `decrementAndDelete()` performs `--(*refCount_)` unconditionally
  and, on reaching zero, deletes both the object and the count cell.
* `WeakPtr<T>` : copies of `ptr_` and `refCount_`; its constructors and
  (implicit) destructor touch no count; `expired()` reads `*refCount_`.

The embedding replaces raw memory by explicit heaps: `objects` is the heap
of managed objects (`none` = freed storage), `blocks` is the heap of
reference-count cells (`none` = freed storage), and the handle tables hold
`none` for handles whose lifetime has ended.  Pointers become `Option Nat`
indices (`none` = null pointer).  Every dereference of a null or dangling
pointer in the C++ source is undefined behaviour; the embedding models it
by returning `none` (a fault) from the corresponding operation.

Counts model the C++ `std::atomic<int>`: a 32-bit two's-complement
integer whose atomic `++`/`--` wrap around (`[atomics.types.int]`
defines them modulo `2^N`).  `wrap32` maps an integer to its
two's-complement representative in `[-2^31, 2^31)`; every stored count
is such a representative, `(*refCount_)++` stores `wrap32 (c + 1)`, and
`if (--(*refCount_) == 0)` tests `wrap32 (c - 1) = 0`.
-/

namespace SmartPointers

/-- A `SharedPtr<T>` handle: `ptr_` (managed-object index or null) and
`refCount_` (count-cell index or null).  Mirrors the two data members of
the C++ class. -/
structure SharedPtr where
  ptr : Option Nat
  rc : Option Nat
deriving DecidableEq, Repr

/-- A `WeakPtr<T>` handle: the same two data members as `SharedPtr`. -/
structure WeakPtr where
  ptr : Option Nat
  rc : Option Nat
deriving DecidableEq, Repr

/-- Global state of a program run using `SharedPtr` and `WeakPtr`:
the object heap, the heap of reference-count cells, and the tables of
live handles (`none` marks a handle whose lifetime has ended). -/
structure State where
  objects : List (Option Int)
  blocks : List (Option Int)
  shareds : List (Option SharedPtr)
  weaks : List (Option WeakPtr)
deriving DecidableEq, Repr

/-- The empty initial state: no heap cells, no handles. -/
def State.init : State := ⟨[], [], [], []⟩

/-- Look up a live `SharedPtr` handle.  Using a handle whose lifetime has
ended is undefined behaviour in C++, so it yields `none`. -/
def getShared (s : State) (i : Nat) : Option SharedPtr :=
  match s.shareds[i]? with
  | some (some sp) => some sp
  | _ => none

/-- Look up a live `WeakPtr` handle. -/
def getWeak (s : State) (w : Nat) : Option WeakPtr :=
  match s.weaks[w]? with
  | some (some wp) => some wp
  | _ => none

/-- The effect of `delete ptr_` on the object heap: `delete nullptr` is a
no-op; deleting an allocated object frees it; deleting already-freed
storage is undefined behaviour (`none`). -/
def freeObject (p : Option Nat) (s : State) : Option State :=
  match p with
  | none => some s
  | some o =>
    match s.objects[o]? with
    | some (some _) => some { s with objects := s.objects.set o none }
    | _ => none

/-- The two's-complement 32-bit representative of an integer, in
`[-2^31, 2^31)`: the value a wrapped `std::atomic<int>` stores. -/
def wrap32 (x : Int) : Int := (x + 2147483648) % 4294967296 - 2147483648

/-- `SharedPtr::decrementAndDelete`:
`if (--(*refCount_) == 0) { delete ptr_; delete refCount_; }`.
The decrement dereferences `refCount_` unconditionally, so a null or
dangling `refCount_` is a fault; the `int` decrement itself wraps at
32 bits. -/
def decrementAndDelete (sp : SharedPtr) (s : State) : Option State :=
  match sp.rc with
  | none => none
  | some b =>
    match s.blocks[b]? with
    | some (some c) =>
      if wrap32 (c - 1) = 0 then
        (freeObject sp.ptr s).map fun s1 =>
          { s1 with blocks := s1.blocks.set b none }
      else
        some { s with blocks := s.blocks.set b (some (wrap32 (c - 1))) }
    | _ => none

/-- The `(*refCount_)++` step of the copy constructor and copy
assignment: dereferences the count cell and increments it, wrapping at
32 bits as the `int` increment does. -/
def incrementRef (rc : Option Nat) (s : State) : Option State :=
  match rc with
  | none => none
  | some b =>
    match s.blocks[b]? with
    | some (some c) => some { s with blocks := s.blocks.set b (some (wrap32 (c + 1))) }
    | _ => none

/-- `SharedPtr::SharedPtr(T* ptr = nullptr)`: stores the raw pointer and
allocates a fresh count cell initialised to 1, for the null pointer too. -/
def sharedFromRaw (p : Option Nat) (s : State) : State :=
  { s with blocks := s.blocks ++ [some 1],
           shareds := s.shareds ++ [some ⟨p, some s.blocks.length⟩] }

/-- `new T(args)` for a constructor argument that may be null: allocates a
fresh object (or passes the null pointer through). -/
def allocObject (v : Option Int) (s : State) : Option Nat × State :=
  match v with
  | none => (none, s)
  | some x => (some s.objects.length, { s with objects := s.objects ++ [some x] })

/-- `WeakPtr::expired()`: `refCount_ == nullptr || *refCount_ == 0`.
Reading a freed count cell is undefined behaviour (`none`). -/
def expired (wp : WeakPtr) (s : State) : Option Bool :=
  match wp.rc with
  | none => some true
  | some b =>
    match s.blocks[b]? with
    | some (some c) => some (c == 0)
    | _ => none

/-- `SharedPtr::use_count()`: `return *refCount_;`. -/
def use_count (s : State) (i : Nat) : Option Int :=
  match getShared s i with
  | none => none
  | some sp =>
    match sp.rc with
    | none => none
    | some b =>
      match s.blocks[b]? with
      | some (some c) => some c
      | _ => none

/-- The operations a caller can perform on `SharedPtr` and `WeakPtr`
handles.  Handles are named by their index in the handle tables. -/
inductive Op where
  | newSP (v : Option Int)
  | copyCons (i : Nat)
  | moveCons (i : Nat)
  | copyAssign (i j : Nat)
  | moveAssign (i j : Nat)
  | destroySP (i : Nat)
  | weakFrom (i : Nat)
  | weakCopy (w : Nat)
  | weakAssign (w w2 : Nat)
  | destroyW (w : Nat)
  | expiredQuery (w : Nat)
deriving DecidableEq, Repr

/-- One operation of the C++ API, as a state transformer.  `none` marks a
run that hit undefined behaviour (or applied an operation to a handle
that does not exist). -/
def step (op : Op) (s : State) : Option State :=
  match op with
  | .newSP v =>
    -- SharedPtr<T> sp(new T(v)) , or SharedPtr<T> sp; when v is null
    let (p, s1) := allocObject v s
    some (sharedFromRaw p s1)
  | .copyCons i =>
    -- SharedPtr(const SharedPtr& other) : copy both members, then (*refCount_)++
    match getShared s i with
    | none => none
    | some sp =>
      match incrementRef sp.rc s with
      | none => none
      | some s1 => some { s1 with shareds := s1.shareds ++ [some sp] }
  | .moveCons i =>
    -- SharedPtr(SharedPtr&& other) : steal both members, null the source
    match getShared s i with
    | none => none
    | some sp =>
      some { s with shareds := (s.shareds.set i (some ⟨none, none⟩)) ++ [some sp] }
  | .copyAssign i j =>
    -- operator=(const SharedPtr&) with the `this != &other` guard
    if i = j then (getShared s i).map fun _ => s
    else
      match getShared s i, getShared s j with
      | some spi, some spj =>
        match decrementAndDelete spi s with
        | none => none
        | some s1 =>
          incrementRef spj.rc { s1 with shareds := s1.shareds.set i (some spj) }
      | _, _ => none
  | .moveAssign i j =>
    -- operator=(SharedPtr&&) with the `this != &other` guard
    if i = j then (getShared s i).map fun _ => s
    else
      match getShared s i, getShared s j with
      | some spi, some spj =>
        match decrementAndDelete spi s with
        | none => none
        | some s1 =>
          some { s1 with
                 shareds := (s1.shareds.set i (some spj)).set j (some ⟨none, none⟩) }
      | _, _ => none
  | .destroySP i =>
    -- ~SharedPtr() { decrementAndDelete(); }
    match getShared s i with
    | none => none
    | some sp =>
      match decrementAndDelete sp s with
      | none => none
      | some s1 => some { s1 with shareds := s1.shareds.set i none }
  | .weakFrom i =>
    -- WeakPtr(const SharedPtr<T>& other) : copy both members, touch no count
    match getShared s i with
    | none => none
    | some sp => some { s with weaks := s.weaks ++ [some ⟨sp.ptr, sp.rc⟩] }
  | .weakCopy w =>
    -- WeakPtr(const WeakPtr& other)
    match getWeak s w with
    | none => none
    | some wp => some { s with weaks := s.weaks ++ [some wp] }
  | .weakAssign w w2 =>
    -- WeakPtr::operator=(const WeakPtr&) (no self-assignment guard needed:
    -- it only copies the two members)
    match getWeak s w, getWeak s w2 with
    | some _, some wp2 => some { s with weaks := s.weaks.set w (some wp2) }
    | _, _ => none
  | .destroyW w =>
    -- ~WeakPtr() is the implicit destructor: no count is touched
    match getWeak s w with
    | none => none
    | some _ => some { s with weaks := s.weaks.set w none }
  | .expiredQuery w =>
    -- calling wp.expired(): read-only, but reading a freed cell is UB
    match getWeak s w with
    | none => none
    | some wp =>
      match expired wp s with
      | none => none
      | some _ => some s

/-- Run a sequence of operations from a given state. -/
def execFrom (ops : List Op) (s : State) : Option State :=
  match ops with
  | [] => some s
  | op :: rest =>
    match step op s with
    | none => none
    | some s1 => execFrom rest s1

/-- Run a sequence of operations from the empty initial state. -/
def exec (ops : List Op) : Option State := execFrom ops State.init

/-- `make_shared<T>(args...)`:
`return SharedPtr<T>(new T(std::forward<Args>(args)...));`.
`ctor` is the constructor of `T`, applied to the forwarded arguments
exactly as a direct construction `T(args...)` would apply it. -/
def make_shared {α : Type} (ctor : α → Int) (args : α) (s : State) : State :=
  let (p, s1) := allocObject (some (ctor args)) s
  sharedFromRaw p s1

/-- Direct construction of a `T` from the same arguments, for comparison
with the object produced by `make_shared`. -/
def directConstruct {α : Type} (ctor : α → Int) (args : α) : Int := ctor args

/-- Is the handle `some h` attached to count cell `b`? -/
def attachedTo (b : Nat) (h : Option SharedPtr) : Bool :=
  match h with
  | some sp => sp.rc == some b
  | none => false

/-- Number of handles in a handle table attached to count cell `b`. -/
def countOwners (sh : List (Option SharedPtr)) (b : Nat) : Nat :=
  sh.countP (attachedTo b)

/-- Number of live `SharedPtr` handles attached to count cell `b`. -/
def ownersOf (s : State) (b : Nat) : Nat := countOwners s.shareds b

/-- Is the weak handle `some w` attached to count cell `b`? -/
def weakAttachedTo (b : Nat) (h : Option WeakPtr) : Bool :=
  match h with
  | some wp => wp.rc == some b
  | none => false

/-- Number of live `WeakPtr` handles attached to count cell `b`. -/
def weaksOf (s : State) (b : Nat) : Nat := s.weaks.countP (weakAttachedTo b)

/-- The strong-count bookkeeping invariant over a count heap and a
handle table: every allocated count cell holds the two's-complement
32-bit wrap of the number of live handles attached to it, cells are
freed only when that wrapped owner count is 0, and every attachment
points into the count heap. -/
def InvOn (bl : List (Option Int)) (sh : List (Option SharedPtr)) : Prop :=
  (∀ b c, bl[b]? = some (some c) → c = wrap32 (countOwners sh b : Int)) ∧
  (∀ b, bl[b]? = some none → wrap32 (countOwners sh b : Int) = 0) ∧
  (∀ (i : Nat) (sp : SharedPtr), sh[i]? = some (some sp) →
    ∀ b, sp.rc = some b → b < bl.length)

/-- The strong-count bookkeeping invariant of a state. -/
def StrongInv (s : State) : Prop := InvOn s.blocks s.shareds

/-- The four `WeakPtr` lifecycle events of the source: construction from
a `SharedPtr`, copy construction, copy assignment, destruction. -/
def weakLifecycle (op : Op) : Bool :=
  match op with
  | .weakFrom _ => true
  | .weakCopy _ => true
  | .weakAssign _ _ => true
  | .destroyW _ => true
  | _ => false

/-- A `UniquePtr<T, Deleter>` handle: the single data member `ptr_`
(the by-value `deleter_` member has no run-time state of its own). -/
structure UniquePtr where
  ptr : Option Nat
deriving DecidableEq, Repr

/-- Global state of a program run using `UniquePtr`: the object heap, the
table of live handles, and the log of deleter invocations (the object
each invocation received). -/
structure UState where
  objects : List (Option Int)
  uniques : List (Option UniquePtr)
  delLog : List Nat
deriving DecidableEq, Repr

/-- The empty initial state for `UniquePtr` runs. -/
def UState.init : UState := ⟨[], [], []⟩

/-- Look up a live `UniquePtr` handle. -/
def getUnique (s : UState) (i : Nat) : Option UniquePtr :=
  match s.uniques[i]? with
  | some (some u) => some u
  | _ => none

/-- `UniquePtr::delete_()`: `if (ptr_) { deleter_(ptr_); ptr_ = nullptr; }`.
Returns the new handle value together with the new state; invoking the
deleter on already-freed storage is undefined behaviour. -/
def deleteU (u : UniquePtr) (s : UState) : Option (UniquePtr × UState) :=
  match u.ptr with
  | none => some (⟨none⟩, s)
  | some o =>
    match s.objects[o]? with
    | some (some _) =>
      some (⟨none⟩, { s with objects := s.objects.set o none,
                             delLog := s.delLog ++ [o] })
    | _ => none

/-- The operations a caller can perform on `UniquePtr` handles. -/
inductive UOp where
  | newU (v : Option Int)
  | umoveCons (i : Nat)
  | umoveAssign (i j : Nat)
  | udestroy (i : Nat)
deriving DecidableEq, Repr

/-- One `UniquePtr` operation as a state transformer. -/
def ustep (op : UOp) (s : UState) : Option UState :=
  match op with
  | .newU v =>
    -- UniquePtr<T> u(new T(v)) , or UniquePtr<T> u; when v is null
    match v with
    | none => some { s with uniques := s.uniques ++ [some ⟨none⟩] }
    | some x =>
      some { s with objects := s.objects ++ [some x],
                    uniques := s.uniques ++ [some ⟨some s.objects.length⟩] }
  | .umoveCons i =>
    -- UniquePtr(UniquePtr&& other) : steal ptr_, null the source
    match getUnique s i with
    | none => none
    | some u =>
      some { s with uniques := (s.uniques.set i (some ⟨none⟩)) ++ [some u] }
  | .umoveAssign i j =>
    -- operator=(UniquePtr&&) with the `this != &other` guard:
    -- delete_(); ptr_ = other.ptr_; other.ptr_ = nullptr;
    if i = j then (getUnique s i).map fun _ => s
    else
      match getUnique s i, getUnique s j with
      | some ui, some uj =>
        match deleteU ui s with
        | none => none
        | some (_, s1) =>
          some { s1 with
                 uniques := (s1.uniques.set i (some uj)).set j (some ⟨none⟩) }
      | _, _ => none
  | .udestroy i =>
    -- ~UniquePtr() { delete_(); }
    match getUnique s i with
    | none => none
    | some u =>
      match deleteU u s with
      | none => none
      | some (_, s1) => some { s1 with uniques := s1.uniques.set i none }

/-- Run a sequence of `UniquePtr` operations from a given state. -/
def uexecFrom (ops : List UOp) (s : UState) : Option UState :=
  match ops with
  | [] => some s
  | op :: rest =>
    match ustep op s with
    | none => none
    | some s1 => uexecFrom rest s1

/-- Run a sequence of `UniquePtr` operations from the empty state. -/
def uexec (ops : List UOp) : Option UState := uexecFrom ops UState.init

/-- Is the handle `some u` the owner of object `o`? -/
def uOwns (o : Nat) (h : Option UniquePtr) : Bool :=
  match h with
  | some u => u.ptr == some o
  | none => false

/-- Number of live `UniquePtr` handles owning object `o`. -/
def uOwners (s : UState) (o : Nat) : Nat := s.uniques.countP (uOwns o)

/-- The deleter bookkeeping invariant for `UniquePtr`, over an object
heap, a handle table and a deleter-invocation log: for every object that
was ever allocated, deleter invocations on it plus live owners of it
total exactly one, and nothing refers to indices never allocated. -/
def UInvOn (obs : List (Option Int)) (un : List (Option UniquePtr))
    (lg : List Nat) : Prop :=
  (∀ o, o < obs.length → lg.count o + List.countP (uOwns o) un = 1) ∧
  (∀ o, ¬ o < obs.length → lg.count o = 0 ∧ List.countP (uOwns o) un = 0)

/-- The deleter bookkeeping invariant of a `UniquePtr` state. -/
def UInv (s : UState) : Prop := UInvOn s.objects s.uniques s.delLog

/-! ### General list bookkeeping lemmas -/

theorem getElem?_lt_length {α : Type} {l : List α} {n : Nat} {a : α}
    (h : l[n]? = some a) : n < l.length := by
  by_contra hc
  rw [List.getElem?_eq_none (Nat.le_of_not_lt hc)] at h
  exact Option.noConfusion h

theorem countP_set_balance {α : Type} (l : List α) (n : Nat) (a b : α)
    (h : l[n]? = some a) (p : α → Bool) :
    (l.set n b).countP p + (if p a then 1 else 0)
      = l.countP p + (if p b then 1 else 0) := by
  induction l generalizing n with
  | nil => simp at h
  | cons x xs ih =>
    cases n with
    | zero =>
      simp at h
      subst h
      simp [List.countP_cons]
      omega
    | succ m =>
      simp at h
      simp [List.countP_cons, List.set]
      have := ih m h
      omega

theorem countP_concat {α : Type} (l : List α) (a : α) (p : α → Bool) :
    (l ++ [a]).countP p = l.countP p + (if p a then 1 else 0) := by
  rw [List.countP_append]
  simp [List.countP_cons]

theorem countP_pos_of_getElem? {α : Type} {l : List α} {n : Nat} {a : α}
    (h : l[n]? = some a) {p : α → Bool} (hp : p a = true) : 1 ≤ l.countP p := by
  have hm : a ∈ l := List.getElem?_mem h
  have := List.countP_pos_iff (p := p) (l := l)
  exact this.mpr ⟨a, hm, hp⟩

theorem countP_replicate_true {α : Type} {a : α} {p : α → Bool}
    (hp : p a = true) : ∀ n, (List.replicate n a).countP p = n := by
  intro n
  induction n with
  | zero => simp
  | succ n ih =>
    rw [List.replicate_succ, List.countP_cons, ih, hp]
    simp

/-! ### Two's-complement 32-bit wrapping arithmetic -/

theorem wrap32_small {x : Int} (h0 : 0 ≤ x) (h1 : x < 2147483648) :
    wrap32 x = x := by
  unfold wrap32
  omega

theorem wrap32_add_wrap (x y : Int) : wrap32 (wrap32 x + y) = wrap32 (x + y) := by
  unfold wrap32
  omega

theorem wrap32_sub_wrap (x : Int) : wrap32 (wrap32 x - 1) = wrap32 (x - 1) := by
  unfold wrap32
  omega

theorem wrap32_idem (x : Int) : wrap32 (wrap32 x) = wrap32 x := by
  unfold wrap32
  omega

/-! ### Characterizations of the primitive heap operations -/

theorem attachedTo_some {b : Nat} {sp : SharedPtr} :
    attachedTo b (some sp) = true ↔ sp.rc = some b := by
  simp [attachedTo]

theorem getShared_eq {s : State} {i : Nat} {sp : SharedPtr} :
    getShared s i = some sp ↔ s.shareds[i]? = some (some sp) := by
  unfold getShared
  cases hx : s.shareds[i]? with
  | none => simp
  | some o => cases o <;> simp

theorem getWeak_eq {s : State} {w : Nat} {wp : WeakPtr} :
    getWeak s w = some wp ↔ s.weaks[w]? = some (some wp) := by
  unfold getWeak
  cases hx : s.weaks[w]? with
  | none => simp
  | some o => cases o <;> simp

theorem freeObject_char {p : Option Nat} {s s1 : State}
    (h : freeObject p s = some s1) :
    s1.blocks = s.blocks ∧ s1.shareds = s.shareds ∧ s1.weaks = s.weaks := by
  unfold freeObject at h
  cases p with
  | none => cases h; exact ⟨rfl, rfl, rfl⟩
  | some o =>
    cases hx : s.objects[o]? with
    | none => simp [hx] at h
    | some v =>
      cases v with
      | none => simp [hx] at h
      | some x =>
        simp only [hx] at h
        cases h
        exact ⟨rfl, rfl, rfl⟩

theorem decrementAndDelete_char {sp : SharedPtr} {s s1 : State}
    (h : decrementAndDelete sp s = some s1) :
    ∃ b c, sp.rc = some b ∧ s.blocks[b]? = some (some c) ∧
      s1.shareds = s.shareds ∧ s1.weaks = s.weaks ∧
      ((wrap32 (c - 1) = 0 ∧ s1.blocks = s.blocks.set b none) ∨
       (wrap32 (c - 1) ≠ 0 ∧ s1.blocks = s.blocks.set b (some (wrap32 (c - 1))))) := by
  unfold decrementAndDelete at h
  cases hrc : sp.rc with
  | none => rw [hrc] at h; exact Option.noConfusion h
  | some b =>
    rw [hrc] at h
    cases hb : s.blocks[b]? with
    | none => simp [hb] at h
    | some v =>
      cases v with
      | none => simp [hb] at h
      | some c =>
        simp only [hb] at h
        by_cases hc : wrap32 (c - 1) = 0
        · rw [if_pos hc] at h
          cases hf : freeObject sp.ptr s with
          | none => rw [hf] at h; exact Option.noConfusion h
          | some s0 =>
            rw [hf] at h
            cases h
            obtain ⟨h1, h2, h3⟩ := freeObject_char hf
            refine ⟨b, c, rfl, hb, h2, h3, Or.inl ⟨hc, ?_⟩⟩
            simp [h1]
        · rw [if_neg hc] at h
          cases h
          refine ⟨b, c, rfl, hb, rfl, rfl, Or.inr ⟨hc, rfl⟩⟩

theorem incrementRef_char {rc : Option Nat} {s s1 : State}
    (h : incrementRef rc s = some s1) :
    ∃ b c, rc = some b ∧ s.blocks[b]? = some (some c) ∧
      s1 = { s with blocks := s.blocks.set b (some (wrap32 (c + 1))) } := by
  unfold incrementRef at h
  cases rc with
  | none => exact Option.noConfusion h
  | some b =>
    cases hb : s.blocks[b]? with
    | none => simp [hb] at h
    | some v =>
      cases v with
      | none => simp [hb] at h
      | some c =>
        simp only [hb] at h
        cases h
        exact ⟨b, c, rfl, hb, rfl⟩

theorem allocObject_char (v : Option Int) (s : State) :
    ((allocObject v s).2).blocks = s.blocks ∧
    ((allocObject v s).2).shareds = s.shareds ∧
    ((allocObject v s).2).weaks = s.weaks := by
  cases v <;> simp [allocObject]

/-! ### Counting lemmas for the handle table -/

theorem countOwners_concat (sh : List (Option SharedPtr)) (h : Option SharedPtr)
    (b : Nat) :
    countOwners (sh ++ [h]) b
      = countOwners sh b + (if attachedTo b h then 1 else 0) :=
  countP_concat sh h (attachedTo b)

theorem countOwners_set_balance {sh : List (Option SharedPtr)} {i : Nat}
    {a : Option SharedPtr} (b : Nat) (h2 : Option SharedPtr)
    (h : sh[i]? = some a) :
    countOwners (sh.set i h2) b + (if attachedTo b a then 1 else 0)
      = countOwners sh b + (if attachedTo b h2 then 1 else 0) :=
  countP_set_balance sh i a h2 h (attachedTo b)

theorem getElem?_concat_cases {α : Type} {l : List α} {a x : α} {i : Nat}
    (h : (l ++ [a])[i]? = some x) : l[i]? = some x ∨ (i = l.length ∧ a = x) := by
  by_cases hlt : i < l.length
  · left
    rw [List.getElem?_append_left hlt] at h
    exact h
  · right
    have hlen := getElem?_lt_length h
    rw [List.length_append, List.length_singleton] at hlen
    have heq : i = l.length := by omega
    subst heq
    rw [List.getElem?_concat_length] at h
    cases h
    exact ⟨rfl, rfl⟩

/-! ### Consequences of the strong-count invariant -/

theorem countOwners_out_of_range {bl : List (Option Int)}
    {sh : List (Option SharedPtr)} (hInv : InvOn bl sh) {b : Nat}
    (hb : bl.length ≤ b) : countOwners sh b = 0 := by
  apply List.countP_eq_zero.mpr
  intro h hmem hatt
  cases h with
  | none => simp [attachedTo] at hatt
  | some sp =>
    rw [attachedTo_some] at hatt
    obtain ⟨n, hn⟩ := List.mem_iff_getElem?.mp hmem
    have := hInv.2.2 n sp hn b hatt
    omega

theorem two_owners {sh : List (Option SharedPtr)}
    {b i j : Nat} {spi spj : SharedPtr} (hij : i ≠ j)
    (hi : sh[i]? = some (some spi)) (hj : sh[j]? = some (some spj))
    (hbi : spi.rc = some b) (hbj : spj.rc = some b) : 2 ≤ countOwners sh b := by
  have hpi : attachedTo b (some spi) = true := attachedTo_some.mpr hbi
  have hpj : attachedTo b (some spj) = true := attachedTo_some.mpr hbj
  have hfalse : attachedTo b (none : Option SharedPtr) = false := rfl
  have hbal := countP_set_balance sh i (some spi) none hi (attachedTo b)
  rw [hpi, hfalse] at hbal
  simp only [if_true, Bool.false_eq_true, if_false, Nat.add_zero] at hbal
  have hj2 : (sh.set i none)[j]? = some (some spj) := by
    rw [List.getElem?_set_ne hij]; exact hj
  have hone : 1 ≤ (sh.set i none).countP (attachedTo b) :=
    countP_pos_of_getElem? hj2 hpj
  unfold countOwners
  omega

theorem one_owner_of_attached {sh : List (Option SharedPtr)} {i b : Nat}
    {sp : SharedPtr} (hi : sh[i]? = some (some sp)) (hb : sp.rc = some b) :
    1 ≤ countOwners sh b :=
  countP_pos_of_getElem? hi (attachedTo_some.mpr hb)

theorem attachedTo_false {b b2 : Nat} {sp : SharedPtr}
    (h : sp.rc = some b2) (hne : b ≠ b2) : attachedTo b (some sp) = false := by
  simp only [attachedTo, h, beq_eq_false_iff_ne, ne_eq, Option.some.injEq]
  omega

theorem attachedTo_false_of_none {b : Nat} {sp : SharedPtr}
    (h : sp.rc = none) : attachedTo b (some sp) = false := by
  simp [attachedTo, h]

/-! ### Preservation of the strong-count invariant, per operation -/

theorem invOn_fresh {bl : List (Option Int)} {sh : List (Option SharedPtr)}
    (hInv : InvOn bl sh) (p : Option Nat) :
    InvOn (bl ++ [some 1]) (sh ++ [some ⟨p, some bl.length⟩]) := by
  obtain ⟨h1, h2, h3⟩ := hInv
  have hzero : countOwners sh bl.length = 0 :=
    countOwners_out_of_range ⟨h1, h2, h3⟩ (Nat.le_refl _)
  refine ⟨?_, ?_, ?_⟩
  · intro b c hb
    rw [countOwners_concat]
    rcases getElem?_concat_cases hb with hbl | ⟨hbe, hval⟩
    · have hblt := getElem?_lt_length hbl
      have hc := h1 b c hbl
      have hne : attachedTo b (some ⟨p, some bl.length⟩) = false := by
        simp only [attachedTo, beq_eq_false_iff_ne, ne_eq, Option.some.injEq]
        omega
      rw [hne]
      simp only [Bool.false_eq_true, if_false, Nat.add_zero]
      exact hc
    · subst hbe
      have hc : c = 1 := by
        have := hval.symm
        simpa using this
      subst hc
      have hyes : attachedTo bl.length (some ⟨p, some bl.length⟩) = true := by
        simp [attachedTo]
      rw [hyes, hzero]
      decide
  · intro b hb
    rcases getElem?_concat_cases hb with hbl | ⟨hbe, hval⟩
    · have hblt := getElem?_lt_length hbl
      have hc := h2 b hbl
      rw [countOwners_concat]
      have hne : attachedTo b (some ⟨p, some bl.length⟩) = false := by
        simp only [attachedTo, beq_eq_false_iff_ne, ne_eq, Option.some.injEq]
        omega
      rw [hne]
      simp only [Bool.false_eq_true, if_false, Nat.add_zero]
      exact hc
    · exact absurd hval (by simp)
  · intro i sp hi b hrc
    rw [List.length_append, List.length_singleton]
    rcases getElem?_concat_cases hi with hil | ⟨hie, hval⟩
    · have := h3 i sp hil b hrc
      omega
    · have hsp : sp = ⟨p, some bl.length⟩ := by
        have := hval.symm
        simpa using this
      subst hsp
      simp only [Option.some.injEq] at hrc
      omega

theorem invOn_inc_attach {bl : List (Option Int)} {sh : List (Option SharedPtr)}
    {i b0 : Nat} {sp : SharedPtr} {c0 : Int}
    (hInv : InvOn bl sh) (hi : sh[i]? = some (some sp)) (hrc : sp.rc = some b0)
    (hb0 : bl[b0]? = some (some c0)) :
    InvOn (bl.set b0 (some (wrap32 (c0 + 1)))) (sh ++ [some sp]) := by
  obtain ⟨h1, h2, h3⟩ := hInv
  have hb0lt : b0 < bl.length := getElem?_lt_length hb0
  have hc0 : c0 = wrap32 (countOwners sh b0 : Int) := h1 b0 c0 hb0
  refine ⟨?_, ?_, ?_⟩
  · intro b c hb
    rw [countOwners_concat]
    by_cases hbe : b = b0
    · subst hbe
      rw [List.getElem?_set_eq_of_lt _ hb0lt] at hb
      have hc : c = wrap32 (c0 + 1) := by
        have := hb.symm
        simpa using this
      have hyes : attachedTo b (some sp) = true := attachedTo_some.mpr hrc
      rw [hyes]
      simp only [if_true]
      rw [hc, hc0, wrap32_add_wrap]
      congr 1
    · rw [List.getElem?_set_ne (fun he => hbe he.symm)] at hb
      have hc := h1 b c hb
      have hne : attachedTo b (some sp) = false := by
        simp only [attachedTo, hrc, beq_eq_false_iff_ne, ne_eq, Option.some.injEq]
        omega
      rw [hne]
      simp only [Bool.false_eq_true, if_false, Nat.add_zero]
      exact hc
  · intro b hb
    by_cases hbe : b = b0
    · subst hbe
      rw [List.getElem?_set_eq_of_lt _ hb0lt] at hb
      simp at hb
    · rw [List.getElem?_set_ne (fun he => hbe he.symm)] at hb
      have hc := h2 b hb
      rw [countOwners_concat]
      have hne : attachedTo b (some sp) = false := by
        simp only [attachedTo, hrc, beq_eq_false_iff_ne, ne_eq, Option.some.injEq]
        omega
      rw [hne]
      simp only [Bool.false_eq_true, if_false, Nat.add_zero]
      exact hc
  · intro i2 sp2 hi2 b hrc2
    rw [List.length_set]
    rcases getElem?_concat_cases hi2 with hil | ⟨hie, hval⟩
    · exact h3 i2 sp2 hil b hrc2
    · have hsp : sp2 = sp := by
        have := hval.symm
        simpa using this
      subst hsp
      rw [hrc] at hrc2
      simp only [Option.some.injEq] at hrc2
      omega

theorem invOn_move {bl : List (Option Int)} {sh : List (Option SharedPtr)}
    {i : Nat} {sp : SharedPtr}
    (hInv : InvOn bl sh) (hi : sh[i]? = some (some sp)) :
    InvOn bl ((sh.set i (some ⟨none, none⟩)) ++ [some sp]) := by
  obtain ⟨h1, h2, h3⟩ := hInv
  have hcount : ∀ b, countOwners ((sh.set i (some ⟨none, none⟩)) ++ [some sp]) b
      = countOwners sh b := by
    intro b
    have hbal := countOwners_set_balance b (some ⟨none, none⟩) hi
    have hnull : attachedTo b (some (⟨none, none⟩ : SharedPtr)) = false := rfl
    rw [hnull] at hbal
    simp only [Bool.false_eq_true, if_false, Nat.add_zero] at hbal
    rw [countOwners_concat]
    omega
  refine ⟨?_, ?_, ?_⟩
  · intro b c hb
    rw [hcount]
    exact h1 b c hb
  · intro b hb
    rw [hcount]
    exact h2 b hb
  · intro i2 sp2 hi2 b hrc2
    rcases getElem?_concat_cases hi2 with hil | ⟨hie, hval⟩
    · by_cases hii : i2 = i
      · subst hii
        have hilt : i2 < sh.length := getElem?_lt_length hi
        rw [List.getElem?_set_eq_of_lt _ hilt] at hil
        have hsp : sp2 = ⟨none, none⟩ := by
          have := hil.symm
          simpa using this
        subst hsp
        exact absurd hrc2 (by simp)
      · rw [List.getElem?_set_ne (fun he => hii he.symm)] at hil
        exact h3 i2 sp2 hil b hrc2
    · have hsp : sp2 = sp := by
        have := hval.symm
        simpa using this
      subst hsp
      exact h3 i _ hi b hrc2

theorem invOn_destroy {bl : List (Option Int)} {sh : List (Option SharedPtr)}
    {i b1 : Nat} {c1 : Int} {spi : SharedPtr} {bl2 : List (Option Int)}
    (hInv : InvOn bl sh)
    (hi : sh[i]? = some (some spi)) (hrc : spi.rc = some b1)
    (hb1 : bl[b1]? = some (some c1))
    (hcase : (wrap32 (c1 - 1) = 0 ∧ bl2 = bl.set b1 none) ∨
             (wrap32 (c1 - 1) ≠ 0 ∧ bl2 = bl.set b1 (some (wrap32 (c1 - 1))))) :
    InvOn bl2 (sh.set i none) := by
  obtain ⟨h1, h2, h3⟩ := hInv
  have hb1lt : b1 < bl.length := getElem?_lt_length hb1
  have hc1 : c1 = wrap32 (countOwners sh b1 : Int) := h1 b1 c1 hb1
  have hdetach : ∀ b, countOwners (sh.set i none) b
      + (if attachedTo b (some spi) then 1 else 0) = countOwners sh b := by
    intro b
    have hbal := countOwners_set_balance b none hi
    have hn : attachedTo b (none : Option SharedPtr) = false := rfl
    rw [hn] at hbal
    simpa using hbal
  have hlen : bl2.length = bl.length := by
    rcases hcase with ⟨_, he⟩ | ⟨_, he⟩ <;> rw [he, List.length_set]
  have hkey : wrap32 (countOwners (sh.set i none) b1 : Int) = wrap32 (c1 - 1) := by
    have hT : attachedTo b1 (some spi) = true := attachedTo_some.mpr hrc
    have hd := hdetach b1
    rw [hT] at hd
    simp only [if_true] at hd
    rw [hc1, wrap32_sub_wrap]
    congr 1
    omega
  refine ⟨?_, ?_, ?_⟩
  · intro b c hb
    by_cases hbe : b = b1
    · subst hbe
      rcases hcase with ⟨hc1e, he⟩ | ⟨hc1e, he⟩
      · rw [he, List.getElem?_set_eq_of_lt _ hb1lt] at hb
        simp at hb
      · rw [he, List.getElem?_set_eq_of_lt _ hb1lt] at hb
        have hcv : c = wrap32 (c1 - 1) := by
          have := hb.symm
          simpa using this
        rw [hcv, hkey]
    · have hb2 : bl[b]? = some (some c) := by
        rcases hcase with ⟨_, he⟩ | ⟨_, he⟩ <;>
          rw [he, List.getElem?_set_ne (fun h => hbe h.symm)] at hb <;> exact hb
      have hc := h1 b c hb2
      have hF : attachedTo b (some spi) = false := attachedTo_false hrc hbe
      have hd := hdetach b
      rw [hF] at hd
      simp only [Bool.false_eq_true, if_false, Nat.add_zero] at hd
      rw [hd]
      exact hc
  · intro b hb
    by_cases hbe : b = b1
    · subst hbe
      rcases hcase with ⟨hc1e, he⟩ | ⟨hc1e, he⟩
      · rw [hkey]
        exact hc1e
      · rw [he, List.getElem?_set_eq_of_lt _ hb1lt] at hb
        simp at hb
    · have hb2 : bl[b]? = some none := by
        rcases hcase with ⟨_, he⟩ | ⟨_, he⟩ <;>
          rw [he, List.getElem?_set_ne (fun h => hbe h.symm)] at hb <;> exact hb
      have hz := h2 b hb2
      have hF : attachedTo b (some spi) = false := attachedTo_false hrc hbe
      have hd := hdetach b
      rw [hF] at hd
      simp only [Bool.false_eq_true, if_false, Nat.add_zero] at hd
      rw [hd]
      exact hz
  · intro i2 sp2 hi2 b hrc2
    rw [hlen]
    by_cases hii : i2 = i
    · subst hii
      have hilt : i2 < sh.length := getElem?_lt_length hi
      rw [List.getElem?_set_eq_of_lt _ hilt] at hi2
      simp at hi2
    · rw [List.getElem?_set_ne (fun h => hii h.symm)] at hi2
      exact h3 i2 sp2 hi2 b hrc2

theorem invOn_moveAssign {bl : List (Option Int)} {sh : List (Option SharedPtr)}
    {i j b1 : Nat} {c1 : Int} {spi spj : SharedPtr} {bl2 : List (Option Int)}
    (hInv : InvOn bl sh) (hij : i ≠ j)
    (hi : sh[i]? = some (some spi)) (hj : sh[j]? = some (some spj))
    (hrc : spi.rc = some b1) (hb1 : bl[b1]? = some (some c1))
    (hcase : (wrap32 (c1 - 1) = 0 ∧ bl2 = bl.set b1 none) ∨
             (wrap32 (c1 - 1) ≠ 0 ∧ bl2 = bl.set b1 (some (wrap32 (c1 - 1))))) :
    InvOn bl2 ((sh.set i (some spj)).set j (some ⟨none, none⟩)) := by
  obtain ⟨h1, h2, h3⟩ := hInv
  have hb1lt : b1 < bl.length := getElem?_lt_length hb1
  have hc1 : c1 = wrap32 (countOwners sh b1 : Int) := h1 b1 c1 hb1
  have hjmid : (sh.set i (some spj))[j]? = some (some spj) := by
    rw [List.getElem?_set_ne hij]
    exact hj
  have hdetach : ∀ b, countOwners ((sh.set i (some spj)).set j (some ⟨none, none⟩)) b
      + (if attachedTo b (some spi) then 1 else 0) = countOwners sh b := by
    intro b
    have hbal1 := countOwners_set_balance b (some spj) hi
    have hbal2 := countOwners_set_balance b (some ⟨none, none⟩) hjmid
    have hn : attachedTo b (some (⟨none, none⟩ : SharedPtr)) = false := rfl
    rw [hn] at hbal2
    simp only [Bool.false_eq_true, if_false, Nat.add_zero] at hbal2
    omega
  have hlen : bl2.length = bl.length := by
    rcases hcase with ⟨_, he⟩ | ⟨_, he⟩ <;> rw [he, List.length_set]
  have hkey : wrap32
      (countOwners ((sh.set i (some spj)).set j (some ⟨none, none⟩)) b1 : Int)
      = wrap32 (c1 - 1) := by
    have hT : attachedTo b1 (some spi) = true := attachedTo_some.mpr hrc
    have hd := hdetach b1
    rw [hT] at hd
    simp only [if_true] at hd
    rw [hc1, wrap32_sub_wrap]
    congr 1
    omega
  refine ⟨?_, ?_, ?_⟩
  · intro b c hb
    by_cases hbe : b = b1
    · subst hbe
      rcases hcase with ⟨hc1e, he⟩ | ⟨hc1e, he⟩
      · rw [he, List.getElem?_set_eq_of_lt _ hb1lt] at hb
        simp at hb
      · rw [he, List.getElem?_set_eq_of_lt _ hb1lt] at hb
        have hcv : c = wrap32 (c1 - 1) := by
          have := hb.symm
          simpa using this
        rw [hcv, hkey]
    · have hb2 : bl[b]? = some (some c) := by
        rcases hcase with ⟨_, he⟩ | ⟨_, he⟩ <;>
          rw [he, List.getElem?_set_ne (fun h => hbe h.symm)] at hb <;> exact hb
      have hc := h1 b c hb2
      have hF : attachedTo b (some spi) = false := attachedTo_false hrc hbe
      have hd := hdetach b
      rw [hF] at hd
      simp only [Bool.false_eq_true, if_false, Nat.add_zero] at hd
      rw [hd]
      exact hc
  · intro b hb
    by_cases hbe : b = b1
    · subst hbe
      rcases hcase with ⟨hc1e, he⟩ | ⟨hc1e, he⟩
      · rw [hkey]
        exact hc1e
      · rw [he, List.getElem?_set_eq_of_lt _ hb1lt] at hb
        simp at hb
    · have hb2 : bl[b]? = some none := by
        rcases hcase with ⟨_, he⟩ | ⟨_, he⟩ <;>
          rw [he, List.getElem?_set_ne (fun h => hbe h.symm)] at hb <;> exact hb
      have hz := h2 b hb2
      have hF : attachedTo b (some spi) = false := attachedTo_false hrc hbe
      have hd := hdetach b
      rw [hF] at hd
      simp only [Bool.false_eq_true, if_false, Nat.add_zero] at hd
      rw [hd]
      exact hz
  · intro i2 sp2 hi2 b hrc2
    rw [hlen]
    by_cases hjj : i2 = j
    · subst hjj
      have hjlt : i2 < (sh.set i (some spj)).length := by
        rw [List.length_set]
        exact getElem?_lt_length hj
      rw [List.getElem?_set_eq_of_lt _ hjlt] at hi2
      have hsp : sp2 = ⟨none, none⟩ := by
        have := hi2.symm
        simpa using this
      subst hsp
      exact absurd hrc2 (by simp)
    · rw [List.getElem?_set_ne (fun h => hjj h.symm)] at hi2
      by_cases hii : i2 = i
      · subst hii
        have hilt : i2 < sh.length := getElem?_lt_length hi
        rw [List.getElem?_set_eq_of_lt _ hilt] at hi2
        have hsp : sp2 = spj := by
          have := hi2.symm
          simpa using this
        subst hsp
        exact h3 j _ hj b hrc2
      · rw [List.getElem?_set_ne (fun h => hii h.symm)] at hi2
        exact h3 i2 sp2 hi2 b hrc2

theorem invOn_copyAssign {bl : List (Option Int)} {sh : List (Option SharedPtr)}
    {i j b1 b2 : Nat} {c1 c2 : Int} {spi spj : SharedPtr} {blD : List (Option Int)}
    (hInv : InvOn bl sh) (hij : i ≠ j)
    (hi : sh[i]? = some (some spi)) (hj : sh[j]? = some (some spj))
    (hrc1 : spi.rc = some b1) (hb1 : bl[b1]? = some (some c1))
    (hcase : (wrap32 (c1 - 1) = 0 ∧ blD = bl.set b1 none) ∨
             (wrap32 (c1 - 1) ≠ 0 ∧ blD = bl.set b1 (some (wrap32 (c1 - 1)))))
    (hrc2 : spj.rc = some b2) (hb2 : blD[b2]? = some (some c2)) :
    InvOn (blD.set b2 (some (wrap32 (c2 + 1)))) (sh.set i (some spj)) := by
  obtain ⟨h1, h2, h3⟩ := hInv
  have hb1lt : b1 < bl.length := getElem?_lt_length hb1
  have hc1 : c1 = wrap32 (countOwners sh b1 : Int) := h1 b1 c1 hb1
  have hb2ltD : b2 < blD.length := getElem?_lt_length hb2
  have hlenD : blD.length = bl.length := by
    rcases hcase with ⟨_, he⟩ | ⟨_, he⟩ <;> rw [he, List.length_set]
  have hattach : ∀ b, countOwners (sh.set i (some spj)) b
      + (if attachedTo b (some spi) then 1 else 0)
      = countOwners sh b + (if attachedTo b (some spj) then 1 else 0) :=
    fun b => countOwners_set_balance b (some spj) hi
  -- The value c2 read back from blD, in terms of the original heap.  In the
  -- freeing case the cell b1 now holds `none`, so the successful read of b2
  -- forces b2 ≠ b1.
  have hc2 : (b2 = b1 ∧ wrap32 (c1 - 1) ≠ 0 ∧ c2 = wrap32 (c1 - 1)) ∨
      (b2 ≠ b1 ∧ bl[b2]? = some (some c2)) := by
    by_cases hbe : b2 = b1
    · subst hbe
      rcases hcase with ⟨hc1e, he⟩ | ⟨hc1e, he⟩
      · rw [he, List.getElem?_set_eq_of_lt _ hb1lt] at hb2
        simp at hb2
      · rw [he, List.getElem?_set_eq_of_lt _ hb1lt] at hb2
        refine Or.inl ⟨rfl, hc1e, ?_⟩
        have := hb2.symm
        simpa using this
    · refine Or.inr ⟨hbe, ?_⟩
      rcases hcase with ⟨_, he⟩ | ⟨_, he⟩ <;>
        rw [he, List.getElem?_set_ne (fun h => hbe h.symm)] at hb2 <;> exact hb2
  refine ⟨?_, ?_, ?_⟩
  · intro b c hb
    by_cases hbe2 : b = b2
    · subst hbe2
      rw [List.getElem?_set_eq_of_lt _ hb2ltD] at hb
      have hcv : c = wrap32 (c2 + 1) := by
        have := hb.symm
        simpa using this
      have hT : attachedTo b (some spj) = true := attachedTo_some.mpr hrc2
      have hat := hattach b
      rw [hT] at hat
      simp only [if_true] at hat
      rcases hc2 with ⟨hbb, hnf, hcc⟩ | ⟨hbb, hb2o⟩
      · subst hbb
        have hTi : attachedTo b (some spi) = true := attachedTo_some.mpr hrc1
        rw [hTi] at hat
        simp only [if_true] at hat
        have hcnt : countOwners (sh.set i (some spj)) b = countOwners sh b := by
          omega
        rw [hcv, hcc, wrap32_add_wrap]
        have harg : c1 - 1 + 1 = c1 := by ring
        rw [harg, hc1, wrap32_idem, hcnt]
      · have hFi : attachedTo b (some spi) = false := attachedTo_false hrc1 hbb
        rw [hFi] at hat
        simp only [Bool.false_eq_true, if_false, Nat.add_zero] at hat
        have hcb := h1 b c2 hb2o
        rw [hcv, hcb, wrap32_add_wrap]
        congr 1
        omega
    · rw [List.getElem?_set_ne (fun h => hbe2 h.symm)] at hb
      have hat := hattach b
      have hFj : attachedTo b (some spj) = false := attachedTo_false hrc2 hbe2
      rw [hFj] at hat
      simp only [Bool.false_eq_true, if_false, Nat.add_zero] at hat
      by_cases hbe1 : b = b1
      · subst hbe1
        rcases hcase with ⟨hc1e, he⟩ | ⟨hc1e, he⟩
        · rw [he, List.getElem?_set_eq_of_lt _ hb1lt] at hb
          simp at hb
        · rw [he, List.getElem?_set_eq_of_lt _ hb1lt] at hb
          have hcv : c = wrap32 (c1 - 1) := by
            have := hb.symm
            simpa using this
          have hTi : attachedTo b (some spi) = true := attachedTo_some.mpr hrc1
          rw [hTi] at hat
          simp only [if_true] at hat
          rw [hcv, hc1, wrap32_sub_wrap]
          congr 1
          omega
      · have hbo : bl[b]? = some (some c) := by
          rcases hcase with ⟨_, he⟩ | ⟨_, he⟩ <;>
            rw [he, List.getElem?_set_ne (fun h => hbe1 h.symm)] at hb <;> exact hb
        have hc := h1 b c hbo
        have hFi : attachedTo b (some spi) = false := attachedTo_false hrc1 hbe1
        rw [hFi] at hat
        simp only [Bool.false_eq_true, if_false, Nat.add_zero] at hat
        rw [hat]
        exact hc
  · intro b hb
    by_cases hbe2 : b = b2
    · subst hbe2
      rw [List.getElem?_set_eq_of_lt _ hb2ltD] at hb
      simp at hb
    · rw [List.getElem?_set_ne (fun h => hbe2 h.symm)] at hb
      have hat := hattach b
      have hFj : attachedTo b (some spj) = false := attachedTo_false hrc2 hbe2
      rw [hFj] at hat
      simp only [Bool.false_eq_true, if_false, Nat.add_zero] at hat
      by_cases hbe1 : b = b1
      · subst hbe1
        rcases hcase with ⟨hc1e, he⟩ | ⟨hc1e, he⟩
        · have hTi : attachedTo b (some spi) = true := attachedTo_some.mpr hrc1
          rw [hTi] at hat
          simp only [if_true] at hat
          have hkey : wrap32 (countOwners (sh.set i (some spj)) b : Int)
              = wrap32 (c1 - 1) := by
            rw [hc1, wrap32_sub_wrap]
            congr 1
            omega
          rw [hkey]
          exact hc1e
        · rw [he, List.getElem?_set_eq_of_lt _ hb1lt] at hb
          simp at hb
      · have hbo : bl[b]? = some none := by
          rcases hcase with ⟨_, he⟩ | ⟨_, he⟩ <;>
            rw [he, List.getElem?_set_ne (fun h => hbe1 h.symm)] at hb <;> exact hb
        have hz := h2 b hbo
        have hFi : attachedTo b (some spi) = false := attachedTo_false hrc1 hbe1
        rw [hFi] at hat
        simp only [Bool.false_eq_true, if_false, Nat.add_zero] at hat
        rw [hat]
        exact hz
  · intro i2 sp2 hi2 b hrc
    rw [List.length_set, hlenD]
    by_cases hii : i2 = i
    · subst hii
      have hilt : i2 < sh.length := getElem?_lt_length hi
      rw [List.getElem?_set_eq_of_lt _ hilt] at hi2
      have hsp : sp2 = spj := by
        have := hi2.symm
        simpa using this
      subst hsp
      exact h3 j _ hj b hrc
    · rw [List.getElem?_set_ne (fun h => hii h.symm)] at hi2
      exact h3 i2 sp2 hi2 b hrc

theorem step_preserves_strongInv {op : Op} {s s' : State}
    (hInv : StrongInv s) (h : step op s = some s') : StrongInv s' := by
  cases op with
  | newSP v =>
    cases v with
    | none =>
      simp only [step, allocObject] at h
      cases h
      exact invOn_fresh hInv none
    | some x =>
      simp only [step, allocObject] at h
      cases h
      exact invOn_fresh hInv (some s.objects.length)
  | copyCons i =>
    simp only [step] at h
    cases hg : getShared s i with
    | none => simp only [hg] at h; exact Option.noConfusion h
    | some sp =>
      simp only [hg] at h
      cases hinc : incrementRef sp.rc s with
      | none => simp only [hinc] at h; exact Option.noConfusion h
      | some s1 =>
        simp only [hinc] at h
        cases h
        obtain ⟨b, c, hrc, hb, hs1⟩ := incrementRef_char hinc
        subst hs1
        exact invOn_inc_attach hInv (getShared_eq.mp hg) hrc hb
  | moveCons i =>
    simp only [step] at h
    cases hg : getShared s i with
    | none => simp only [hg] at h; exact Option.noConfusion h
    | some sp =>
      simp only [hg] at h
      cases h
      exact invOn_move hInv (getShared_eq.mp hg)
  | copyAssign i j =>
    simp only [step] at h
    by_cases hij : i = j
    · rw [if_pos hij] at h
      cases hg : getShared s i with
      | none => simp only [hg] at h; exact Option.noConfusion h
      | some sp =>
        simp only [hg, Option.map_some'] at h
        cases h
        exact hInv
    · rw [if_neg hij] at h
      cases hgi : getShared s i with
      | none =>
        cases hgj : getShared s j with
        | none => simp only [hgi, hgj] at h; exact Option.noConfusion h
        | some spj => simp only [hgi, hgj] at h; exact Option.noConfusion h
      | some spi =>
        cases hgj : getShared s j with
        | none => simp only [hgi, hgj] at h; exact Option.noConfusion h
        | some spj =>
          simp only [hgi, hgj] at h
          cases hdec : decrementAndDelete spi s with
          | none => simp only [hdec] at h; exact Option.noConfusion h
          | some s1 =>
            simp only [hdec] at h
            obtain ⟨b1, c1, hrc1, hb1, hsh1, hwk1, hcase⟩ :=
              decrementAndDelete_char hdec
            obtain ⟨b2, c2, hrc2, hb2, hs'⟩ := incrementRef_char h
            subst hs'
            show InvOn (s1.blocks.set b2 (some (wrap32 (c2 + 1))))
              (s1.shareds.set i (some spj))
            rw [hsh1]
            exact invOn_copyAssign hInv hij (getShared_eq.mp hgi)
              (getShared_eq.mp hgj) hrc1 hb1 hcase hrc2 hb2
  | moveAssign i j =>
    simp only [step] at h
    by_cases hij : i = j
    · rw [if_pos hij] at h
      cases hg : getShared s i with
      | none => simp only [hg] at h; exact Option.noConfusion h
      | some sp =>
        simp only [hg, Option.map_some'] at h
        cases h
        exact hInv
    · rw [if_neg hij] at h
      cases hgi : getShared s i with
      | none =>
        cases hgj : getShared s j with
        | none => simp only [hgi, hgj] at h; exact Option.noConfusion h
        | some spj => simp only [hgi, hgj] at h; exact Option.noConfusion h
      | some spi =>
        cases hgj : getShared s j with
        | none => simp only [hgi, hgj] at h; exact Option.noConfusion h
        | some spj =>
          simp only [hgi, hgj] at h
          cases hdec : decrementAndDelete spi s with
          | none => simp only [hdec] at h; exact Option.noConfusion h
          | some s1 =>
            simp only [hdec] at h
            cases h
            obtain ⟨b1, c1, hrc1, hb1, hsh1, hwk1, hcase⟩ :=
              decrementAndDelete_char hdec
            show InvOn s1.blocks
              ((s1.shareds.set i (some spj)).set j (some ⟨none, none⟩))
            rw [hsh1]
            exact invOn_moveAssign hInv hij (getShared_eq.mp hgi)
              (getShared_eq.mp hgj) hrc1 hb1 hcase
  | destroySP i =>
    simp only [step] at h
    cases hg : getShared s i with
    | none => simp only [hg] at h; exact Option.noConfusion h
    | some sp =>
      simp only [hg] at h
      cases hdec : decrementAndDelete sp s with
      | none => simp only [hdec] at h; exact Option.noConfusion h
      | some s1 =>
        simp only [hdec] at h
        cases h
        obtain ⟨b1, c1, hrc1, hb1, hsh1, hwk1, hcase⟩ :=
          decrementAndDelete_char hdec
        show InvOn s1.blocks (s1.shareds.set i none)
        rw [hsh1]
        exact invOn_destroy hInv (getShared_eq.mp hg) hrc1 hb1 hcase
  | weakFrom i =>
    simp only [step] at h
    cases hg : getShared s i with
    | none => simp only [hg] at h; exact Option.noConfusion h
    | some sp =>
      simp only [hg] at h
      cases h
      exact hInv
  | weakCopy w =>
    simp only [step] at h
    cases hg : getWeak s w with
    | none => simp only [hg] at h; exact Option.noConfusion h
    | some wp =>
      simp only [hg] at h
      cases h
      exact hInv
  | weakAssign w w2 =>
    simp only [step] at h
    cases hg : getWeak s w with
    | none =>
      cases hg2 : getWeak s w2 with
      | none => simp only [hg, hg2] at h; exact Option.noConfusion h
      | some wp2 => simp only [hg, hg2] at h; exact Option.noConfusion h
    | some wp =>
      cases hg2 : getWeak s w2 with
      | none => simp only [hg, hg2] at h; exact Option.noConfusion h
      | some wp2 =>
        simp only [hg, hg2] at h
        cases h
        exact hInv
  | destroyW w =>
    simp only [step] at h
    cases hg : getWeak s w with
    | none => simp only [hg] at h; exact Option.noConfusion h
    | some wp =>
      simp only [hg] at h
      cases h
      exact hInv
  | expiredQuery w =>
    simp only [step] at h
    cases hg : getWeak s w with
    | none => simp only [hg] at h; exact Option.noConfusion h
    | some wp =>
      simp only [hg] at h
      cases he : expired wp s with
      | none => simp only [he] at h; exact Option.noConfusion h
      | some b =>
        simp only [he] at h
        cases h
        exact hInv

theorem execFrom_strongInv : ∀ (ops : List Op) (s s' : State),
    StrongInv s → execFrom ops s = some s' → StrongInv s' := by
  intro ops
  induction ops with
  | nil =>
    intro s s' hInv hx
    simp only [execFrom] at hx
    cases hx
    exact hInv
  | cons op rest ih =>
    intro s s' hInv hx
    simp only [execFrom] at hx
    cases hstep : step op s with
    | none => rw [hstep] at hx; exact Option.noConfusion hx
    | some s1 =>
      rw [hstep] at hx
      exact ih s1 s' (step_preserves_strongInv hInv hstep) hx

theorem strongInv_init : StrongInv State.init := by
  refine ⟨?_, ?_, ?_⟩
  · intro b c hb
    simp [State.init] at hb
  · intro b hb
    simp [State.init] at hb
  · intro i sp hi b hrc
    simp [State.init] at hi

/-! ### Claim C1: strong count versus live shared owners -/

theorem execFrom_cons (op : Op) (rest : List Op) (s s1 : State)
    (h : step op s = some s1) : execFrom (op :: rest) s = execFrom rest s1 := by
  simp only [execFrom, h]

theorem step_copyCons_state (j : Nat) (w : Int) :
    step (Op.copyCons 0)
      ⟨[some 0], [some w],
        some ⟨some 0, some 0⟩ :: List.replicate j (some ⟨some 0, some 0⟩), []⟩
      = some ⟨[some 0], [some (wrap32 (w + 1))],
          some ⟨some 0, some 0⟩ :: List.replicate (j + 1) (some ⟨some 0, some 0⟩), []⟩ := by
  have hg : getShared
      ⟨[some 0], [some w],
        some ⟨some 0, some 0⟩ :: List.replicate j (some ⟨some 0, some 0⟩), []⟩ 0
      = some ⟨some 0, some 0⟩ := by
    simp [getShared]
  have hinc : incrementRef (some 0)
      ⟨[some 0], [some w],
        some ⟨some 0, some 0⟩ :: List.replicate j (some ⟨some 0, some 0⟩), []⟩
      = some ⟨[some 0], [some (wrap32 (w + 1))],
          some ⟨some 0, some 0⟩ :: List.replicate j (some ⟨some 0, some 0⟩), []⟩ := by
    simp [incrementRef]
  simp only [step, hg, hinc]
  rw [List.cons_append, ← List.replicate_succ']

theorem exec_copyCons_loop : ∀ (k j : Nat),
    execFrom (List.replicate k (Op.copyCons 0))
      ⟨[some 0], [some (wrap32 ((1 + j : Nat) : Int))],
        some ⟨some 0, some 0⟩ :: List.replicate j (some ⟨some 0, some 0⟩), []⟩
      = some ⟨[some 0], [some (wrap32 ((1 + (j + k) : Nat) : Int))],
          some ⟨some 0, some 0⟩ :: List.replicate (j + k) (some ⟨some 0, some 0⟩), []⟩ := by
  intro k
  induction k with
  | zero =>
    intro j
    simp [execFrom]
  | succ k ih =>
    intro j
    rw [List.replicate_succ]
    rw [execFrom_cons _ _ _ _ (step_copyCons_state j (wrap32 ((1 + j : Nat) : Int)))]
    have hargn : ((1 + j : Nat) : Int) + 1 = ((1 + (j + 1) : Nat) : Int) := by
      omega
    have harg := (wrap32_add_wrap ((1 + j : Nat) : Int) 1).trans (congrArg wrap32 hargn)
    rw [harg, ih (j + 1)]
    have h1 : j + 1 + k = j + (k + 1) := by omega
    rw [h1]

/-- C1 (counterexample): the claimed invariant "the block's strong count
equals the number of live Shared Owners attached" is false of the code:
the count is a wrapping 32-bit `int`.  Constructing one owner and
copy-constructing it 2^31 - 1 times succeeds and leaves 2^31 live owners
attached to the block, but the stored count has wrapped to -2^31. -/
theorem strong_count_wraparound_counterexample :
    ¬ (∀ (ops : List Op) (s : State), exec ops = some s →
        ∀ (b : Nat) (c : Int), s.blocks[b]? = some (some c) →
          c = (ownersOf s b : Int)) := by
  intro hclaim
  have hinit : step (Op.newSP (some 0)) State.init
      = some ⟨[some 0], [some (wrap32 ((1 + 0 : Nat) : Int))],
          some ⟨some 0, some 0⟩ :: List.replicate 0 (some ⟨some 0, some 0⟩), []⟩ := by
    decide
  have hrun : exec (Op.newSP (some 0) :: List.replicate 2147483647 (Op.copyCons 0))
      = some ⟨[some 0], [some (wrap32 ((1 + (0 + 2147483647) : Nat) : Int))],
          some ⟨some 0, some 0⟩ :: List.replicate (0 + 2147483647) (some ⟨some 0, some 0⟩),
          []⟩ := by
    show execFrom (Op.newSP (some 0) :: List.replicate 2147483647 (Op.copyCons 0))
        State.init = _
    rw [execFrom_cons _ _ _ _ hinit, exec_copyCons_loop 2147483647 0]
  have hc := hclaim _ _ hrun 0 (wrap32 ((1 + (0 + 2147483647) : Nat) : Int)) rfl
  have howners : ownersOf
      (⟨[some 0], [some (wrap32 ((1 + (0 + 2147483647) : Nat) : Int))],
        some ⟨some 0, some 0⟩ :: List.replicate (0 + 2147483647) (some ⟨some 0, some 0⟩),
        []⟩ : State) 0 = 2147483648 := by
    show (some (⟨some 0, some 0⟩ : SharedPtr)
        :: List.replicate (0 + 2147483647) (some ⟨some 0, some 0⟩)).countP
        (attachedTo 0) = 2147483648
    rw [List.countP_cons,
      countP_replicate_true
        (show attachedTo 0 (some ⟨some 0, some 0⟩) = true from rfl) (0 + 2147483647)]
    decide
  rw [howners] at hc
  have hwrap : wrap32 ((1 + (0 + 2147483647) : Nat) : Int) = -2147483648 := by decide
  rw [hwrap] at hc
  exact absurd hc (by decide)

/-- C1 (amended): at every point a run reaches without undefined
behaviour, every allocated count cell holds the two's-complement 32-bit
wrap of the number of live `SharedPtr` handles attached to it; in
particular the stored count equals the number of live attached owners
exactly whenever fewer than 2^31 owners are attached. -/
theorem shared_strong_count_wrapped_invariant (ops : List Op) (s : State)
    (h : exec ops = some s) (b : Nat) (c : Int)
    (hb : s.blocks[b]? = some (some c)) :
    c = wrap32 (ownersOf s b : Int) ∧
    (ownersOf s b < 2147483648 → c = (ownersOf s b : Int)) := by
  have h1 : c = wrap32 (ownersOf s b : Int) :=
    (execFrom_strongInv ops State.init s strongInv_init h).1 b c hb
  refine ⟨h1, fun hlt => ?_⟩
  rw [h1]
  exact wrap32_small (Int.natCast_nonneg _) (by exact_mod_cast hlt)

/-- Witness for the amended C1: a concrete run (construct, copy, destroy
the copy) reaching a state whose single count cell holds 1 with one live
owner, below the wrap threshold. -/
theorem shared_strong_count_wrapped_invariant_witness :
    exec [Op.newSP (some 1), Op.copyCons 0, Op.destroySP 1]
      = some ⟨[some 1], [some 1], [some ⟨some 0, some 0⟩, none], []⟩ ∧
    (⟨[some 1], [some 1], [some ⟨some 0, some 0⟩, none], []⟩ : State).blocks[0]?
      = some (some 1) ∧
    ((1 : Int) = wrap32
        (ownersOf ⟨[some 1], [some 1], [some ⟨some 0, some 0⟩, none], []⟩ 0 : Int) ∧
      (ownersOf ⟨[some 1], [some 1], [some ⟨some 0, some 0⟩, none], []⟩ 0 < 2147483648 →
        (1 : Int) = (ownersOf ⟨[some 1], [some 1], [some ⟨some 0, some 0⟩, none], []⟩ 0 : Int))) :=
  ⟨by decide, by decide,
    shared_strong_count_wrapped_invariant
      [Op.newSP (some 1), Op.copyCons 0, Op.destroySP 1]
      ⟨[some 1], [some 1], [some ⟨some 0, some 0⟩, none], []⟩ (by decide) 0 1 (by decide)⟩

/-! ### Claim C2: the control block is freed while weak observers remain -/

/-- C2 (refuting run): constructing a `SharedPtr` over 42, attaching a
`WeakPtr`, and destroying the `SharedPtr` frees the count cell (the
resulting heap is `[none]`) even though one live `WeakPtr` is still
attached; the subsequent `expired()` call dereferences the freed cell,
which is undefined behaviour (`exec` = `none`). -/
theorem control_block_freed_while_weak_attached :
    exec [Op.newSP (some 42), Op.weakFrom 0, Op.destroySP 0]
      = some ⟨[none], [none], [none], [some ⟨some 0, some 0⟩]⟩ ∧
    weaksOf ⟨[none], [none], [none], [some ⟨some 0, some 0⟩]⟩ 0 = 1 ∧
    exec [Op.newSP (some 42), Op.weakFrom 0, Op.destroySP 0, Op.expiredQuery 0]
      = none := by
  refine ⟨by decide, by decide, by decide⟩

/-! ### Claim C3: no weak count exists in the code -/

/-- C3 (counterexample): constructing a `WeakPtr` from a live `SharedPtr`
leaves the entire reference-count heap unchanged — the state after
`WeakPtr wp(sp);` has exactly the same `blocks` as the state before it,
although the number of live weak observers attached to cell 0 went from
0 to 1.  Hence no count stored in the control block is incremented by
weak-observer construction: the code maintains no `weak_count`. -/
theorem weak_count_counterexample :
    exec [Op.newSP (some 7)]
      = some ⟨[some 7], [some 1], [some ⟨some 0, some 0⟩], []⟩ ∧
    exec [Op.newSP (some 7), Op.weakFrom 0]
      = some ⟨[some 7], [some 1], [some ⟨some 0, some 0⟩],
              [some ⟨some 0, some 0⟩]⟩ ∧
    (⟨[some 7], [some 1], [some ⟨some 0, some 0⟩],
        [some ⟨some 0, some 0⟩]⟩ : State).blocks
      = (⟨[some 7], [some 1], [some ⟨some 0, some 0⟩], []⟩ : State).blocks ∧
    weaksOf ⟨[some 7], [some 1], [some ⟨some 0, some 0⟩], []⟩ 0 = 0 ∧
    weaksOf ⟨[some 7], [some 1], [some ⟨some 0, some 0⟩],
        [some ⟨some 0, some 0⟩]⟩ 0 = 1 := by
  refine ⟨by decide, by decide, by decide, by decide, by decide⟩

/-- C3 (amended): the control block stores only the strong count, and no
`WeakPtr` lifecycle event (construction from a `SharedPtr`, copy
construction, copy assignment, destruction) modifies any reference count
or any handle of a shared owner; in particular `strong_count` is never
changed by a `WeakPtr` lifecycle event. -/
theorem weak_lifecycle_no_count_change (op : Op) (s s' : State)
    (hw : weakLifecycle op = true) (h : step op s = some s') :
    s'.blocks = s.blocks ∧ s'.shareds = s.shareds ∧ s'.objects = s.objects := by
  cases op with
  | newSP v => simp [weakLifecycle] at hw
  | copyCons i => simp [weakLifecycle] at hw
  | moveCons i => simp [weakLifecycle] at hw
  | copyAssign i j => simp [weakLifecycle] at hw
  | moveAssign i j => simp [weakLifecycle] at hw
  | destroySP i => simp [weakLifecycle] at hw
  | expiredQuery w => simp [weakLifecycle] at hw
  | weakFrom i =>
    simp only [step] at h
    cases hg : getShared s i with
    | none => simp only [hg] at h; exact Option.noConfusion h
    | some sp =>
      simp only [hg] at h
      cases h
      exact ⟨rfl, rfl, rfl⟩
  | weakCopy w =>
    simp only [step] at h
    cases hg : getWeak s w with
    | none => simp only [hg] at h; exact Option.noConfusion h
    | some wp =>
      simp only [hg] at h
      cases h
      exact ⟨rfl, rfl, rfl⟩
  | weakAssign w w2 =>
    simp only [step] at h
    cases hg : getWeak s w with
    | none =>
      cases hg2 : getWeak s w2 with
      | none => simp only [hg, hg2] at h; exact Option.noConfusion h
      | some wp2 => simp only [hg, hg2] at h; exact Option.noConfusion h
    | some wp =>
      cases hg2 : getWeak s w2 with
      | none => simp only [hg, hg2] at h; exact Option.noConfusion h
      | some wp2 =>
        simp only [hg, hg2] at h
        cases h
        exact ⟨rfl, rfl, rfl⟩
  | destroyW w =>
    simp only [step] at h
    cases hg : getWeak s w with
    | none => simp only [hg] at h; exact Option.noConfusion h
    | some wp =>
      simp only [hg] at h
      cases h
      exact ⟨rfl, rfl, rfl⟩

/-- Witness for the amended C3: constructing a `WeakPtr` from the live
`SharedPtr` of a concrete state leaves `blocks` and `shareds` unchanged. -/
theorem weak_lifecycle_no_count_change_witness :
    weakLifecycle (Op.weakFrom 0) = true ∧
    step (Op.weakFrom 0) ⟨[some 7], [some 1], [some ⟨some 0, some 0⟩], []⟩
      = some ⟨[some 7], [some 1], [some ⟨some 0, some 0⟩],
              [some ⟨some 0, some 0⟩]⟩ ∧
    (⟨[some 7], [some 1], [some ⟨some 0, some 0⟩],
        [some ⟨some 0, some 0⟩]⟩ : State).blocks
      = (⟨[some 7], [some 1], [some ⟨some 0, some 0⟩], []⟩ : State).blocks :=
  ⟨by decide, by decide,
    (weak_lifecycle_no_count_change (Op.weakFrom 0)
      ⟨[some 7], [some 1], [some ⟨some 0, some 0⟩], []⟩
      ⟨[some 7], [some 1], [some ⟨some 0, some 0⟩], [some ⟨some 0, some 0⟩]⟩
      (by decide) (by decide)).1⟩

/-! ### Claim C5: destroying a moved-from SharedPtr is a fault -/

/-- C5 (code bug run): after `SharedPtr p2(std::move(p1));` the source
`p1` holds null object and count references; its destructor still calls
`decrementAndDelete`, which dereferences the null `refCount_`, so the run
faults (`exec` = `none`) instead of being a safe no-op. -/
theorem destroy_moved_from_sharedptr_faults :
    exec [Op.newSP (some 5), Op.moveCons 0]
      = some ⟨[some 5], [some 1],
              [some ⟨none, none⟩, some ⟨some 0, some 0⟩], []⟩ ∧
    getShared ⟨[some 5], [some 1],
        [some ⟨none, none⟩, some ⟨some 0, some 0⟩], []⟩ 0 = some ⟨none, none⟩ ∧
    exec [Op.newSP (some 5), Op.moveCons 0, Op.destroySP 0] = none := by
  refine ⟨by decide, by decide, by decide⟩

/-! ### Claim C7: make_shared builds the directly-constructed object -/

/-- C7: `make_shared<T>(args...)` stores an object equal to the direct
construction `T(args...)` (the constructor applied to the same
arguments), attaches the returned shared owner to a fresh count cell
holding exactly 1, and coincides with wrapping `new T(args...)` in the
`SharedPtr` raw-pointer constructor. -/
theorem make_shared_direct_construction {α : Type} (ctor : α → Int)
    (args : α) (s : State) :
    (make_shared ctor args s).objects[s.objects.length]?
      = some (some (directConstruct ctor args)) ∧
    (make_shared ctor args s).blocks[s.blocks.length]? = some (some 1) ∧
    (make_shared ctor args s).shareds[s.shareds.length]?
      = some (some ⟨some s.objects.length, some s.blocks.length⟩) ∧
    use_count (make_shared ctor args s) s.shareds.length = some 1 ∧
    step (Op.newSP (some (ctor args))) s = some (make_shared ctor args s) := by
  refine ⟨?_, ?_, ?_, ?_, ?_⟩
  · show (s.objects ++ [some (ctor args)])[s.objects.length]?
      = some (some (directConstruct ctor args))
    rw [List.getElem?_concat_length]
    rfl
  · show (s.blocks ++ [some 1])[s.blocks.length]? = some (some 1)
    rw [List.getElem?_concat_length]
  · show (s.shareds ++ [some ⟨some s.objects.length, some s.blocks.length⟩])[s.shareds.length]?
      = some (some ⟨some s.objects.length, some s.blocks.length⟩)
    rw [List.getElem?_concat_length]
  · show use_count (make_shared ctor args s) s.shareds.length = some 1
    unfold use_count getShared
    have hsh : (make_shared ctor args s).shareds[s.shareds.length]?
        = some (some ⟨some s.objects.length, some s.blocks.length⟩) := by
      show (s.shareds ++ [some ⟨some s.objects.length, some s.blocks.length⟩])[s.shareds.length]?
        = some (some ⟨some s.objects.length, some s.blocks.length⟩)
      rw [List.getElem?_concat_length]
    rw [hsh]
    have hbl : (make_shared ctor args s).blocks[s.blocks.length]? = some (some 1) := by
      show (s.blocks ++ [some 1])[s.blocks.length]? = some (some 1)
      rw [List.getElem?_concat_length]
    simp only
    rw [hbl]
  · rfl

/-! ### Claim C10: every raw-pointer construction allocates a fresh cell -/

/-- C10: the `SharedPtr` raw-pointer constructor — the default
constructor included — always allocates a fresh count cell initialised
to 1; `use_count()` on a default-constructed `SharedPtr` is 1, and two
consecutively default-constructed handles are attached to two distinct
fresh cells, never sharing one. -/
theorem sharedptr_fresh_control_block (s : State) (v : Option Int) :
    step (Op.newSP v) s
      = some (sharedFromRaw (allocObject v s).1 (allocObject v s).2) ∧
    (sharedFromRaw (allocObject v s).1 (allocObject v s).2).blocks
      = s.blocks ++ [some 1] ∧
    (sharedFromRaw (allocObject v s).1 (allocObject v s).2).shareds[s.shareds.length]?
      = some (some ⟨(allocObject v s).1, some s.blocks.length⟩) ∧
    use_count (sharedFromRaw (allocObject v s).1 (allocObject v s).2)
      s.shareds.length = some 1 ∧
    execFrom [Op.newSP none, Op.newSP none] s
      = some (sharedFromRaw none (sharedFromRaw none s)) ∧
    (sharedFromRaw none (sharedFromRaw none s)).shareds[s.shareds.length]?
      = some (some ⟨none, some s.blocks.length⟩) ∧
    (sharedFromRaw none (sharedFromRaw none s)).shareds[s.shareds.length + 1]?
      = some (some ⟨none, some (s.blocks.length + 1)⟩) ∧
    s.blocks.length ≠ s.blocks.length + 1 := by
  obtain ⟨hbl, hsh, hwk⟩ := allocObject_char v s
  refine ⟨rfl, ?_, ?_, ?_, ?_, ?_, ?_, by omega⟩
  · show ((allocObject v s).2).blocks ++ [some 1] = s.blocks ++ [some 1]
    rw [hbl]
  · show (((allocObject v s).2).shareds
        ++ [some ⟨(allocObject v s).1, some ((allocObject v s).2).blocks.length⟩])[s.shareds.length]?
      = some (some ⟨(allocObject v s).1, some s.blocks.length⟩)
    rw [hbl, hsh, List.getElem?_concat_length]
  · unfold use_count getShared
    have h1 : (sharedFromRaw (allocObject v s).1 (allocObject v s).2).shareds[s.shareds.length]?
        = some (some ⟨(allocObject v s).1, some s.blocks.length⟩) := by
      show (((allocObject v s).2).shareds
          ++ [some ⟨(allocObject v s).1, some ((allocObject v s).2).blocks.length⟩])[s.shareds.length]?
        = some (some ⟨(allocObject v s).1, some s.blocks.length⟩)
      rw [hbl, hsh, List.getElem?_concat_length]
    rw [h1]
    simp only
    have h2 : (sharedFromRaw (allocObject v s).1 (allocObject v s).2).blocks[s.blocks.length]?
        = some (some 1) := by
      show (((allocObject v s).2).blocks ++ [some 1])[s.blocks.length]? = some (some 1)
      rw [hbl, List.getElem?_concat_length]
    rw [h2]
  · show (match step (Op.newSP none) s with
      | none => none
      | some s1 => execFrom [Op.newSP none] s1)
      = some (sharedFromRaw none (sharedFromRaw none s))
    rfl
  · have hXlen : ((sharedFromRaw none s).shareds).length = s.shareds.length + 1 := by
      simp [sharedFromRaw]
    show ((sharedFromRaw none s).shareds
        ++ [some ⟨none, some (sharedFromRaw none s).blocks.length⟩])[s.shareds.length]?
      = some (some ⟨none, some s.blocks.length⟩)
    rw [List.getElem?_append_left (by omega)]
    show (s.shareds ++ [some ⟨none, some s.blocks.length⟩])[s.shareds.length]?
      = some (some ⟨none, some s.blocks.length⟩)
    rw [List.getElem?_concat_length]
  · have hXlen : ((sharedFromRaw none s).shareds).length = s.shareds.length + 1 := by
      simp [sharedFromRaw]
    have hrc : (sharedFromRaw none s).blocks.length = s.blocks.length + 1 := by
      simp [sharedFromRaw]
    show ((sharedFromRaw none s).shareds
        ++ [some ⟨none, some (sharedFromRaw none s).blocks.length⟩])[s.shareds.length + 1]?
      = some (some ⟨none, some (s.blocks.length + 1)⟩)
    rw [← hXlen, List.getElem?_concat_length, hrc]

/-! ### UniquePtr bookkeeping lemmas -/

theorem count_concat_nat (l : List Nat) (a b : Nat) :
    (l ++ [b]).count a = l.count a + (if b = a then 1 else 0) := by
  rw [List.count_append, List.count_cons, List.count_nil]
  simp

theorem getUnique_eq {s : UState} {i : Nat} {u : UniquePtr} :
    getUnique s i = some u ↔ s.uniques[i]? = some (some u) := by
  unfold getUnique
  cases hx : s.uniques[i]? with
  | none => simp
  | some o => cases o <;> simp

theorem deleteU_char {u : UniquePtr} {s : UState} {r : UniquePtr × UState}
    (h : deleteU u s = some r) :
    (u.ptr = none ∧ r = (⟨none⟩, s)) ∨
    (∃ o v, u.ptr = some o ∧ s.objects[o]? = some (some v) ∧
      r = (⟨none⟩, { s with objects := s.objects.set o none, delLog := s.delLog ++ [o] })) := by
  unfold deleteU at h
  cases hp : u.ptr with
  | none =>
    rw [hp] at h
    cases h
    exact Or.inl ⟨rfl, rfl⟩
  | some o =>
    rw [hp] at h
    cases hx : s.objects[o]? with
    | none => simp only [hx] at h; exact Option.noConfusion h
    | some w =>
      cases w with
      | none => simp only [hx] at h; exact Option.noConfusion h
      | some v =>
        simp only [hx] at h
        cases h
        exact Or.inr ⟨o, v, rfl, hx, rfl⟩

theorem uOwns_true {o : Nat} {u : UniquePtr} (h : u.ptr = some o) :
    uOwns o (some u) = true := by
  simp [uOwns, h]

theorem uOwns_false {o o2 : Nat} {u : UniquePtr} (h : u.ptr = some o2)
    (hne : o2 ≠ o) : uOwns o (some u) = false := by
  simp only [uOwns, h, beq_eq_false_iff_ne, ne_eq, Option.some.injEq]
  omega

theorem uOwns_false_of_none {o : Nat} {u : UniquePtr} (h : u.ptr = none) :
    uOwns o (some u) = false := by
  simp [uOwns, h]

theorem uOwners_le_len {s : UState} {o : Nat} (hInv : UInv s)
    (h : ¬ o < s.objects.length) : s.delLog.count o = 0 ∧ uOwners s o = 0 :=
  hInv.2 o h

/-! ### Preservation of the UniquePtr deleter invariant -/

theorem ustep_preserves_uInv {op : UOp} {s s' : UState}
    (hInv : UInv s) (h : ustep op s = some s') : UInv s' := by
  obtain ⟨h1, h2⟩ := hInv
  cases op with
  | newU v =>
    cases v with
    | none =>
      simp only [ustep] at h
      cases h
      show UInvOn s.objects (s.uniques ++ [some ⟨none⟩]) s.delLog
      refine ⟨?_, ?_⟩
      · intro o ho
        rw [countP_concat]
        have hf : uOwns o (some (⟨none⟩ : UniquePtr)) = false := rfl
        rw [hf]
        simp only [Bool.false_eq_true, if_false, Nat.add_zero]
        exact h1 o ho
      · intro o ho
        obtain ⟨hc, hw⟩ := h2 o ho
        refine ⟨hc, ?_⟩
        rw [countP_concat]
        have hf : uOwns o (some (⟨none⟩ : UniquePtr)) = false := rfl
        rw [hf]
        simp only [Bool.false_eq_true, if_false, Nat.add_zero]
        exact hw
    | some x =>
      simp only [ustep] at h
      cases h
      show UInvOn (s.objects ++ [some x])
        (s.uniques ++ [some ⟨some s.objects.length⟩]) s.delLog
      refine ⟨?_, ?_⟩
      · intro o ho
        rw [List.length_append, List.length_singleton] at ho
        rw [countP_concat]
        by_cases hb : o < s.objects.length
        · have hf : uOwns o (some (⟨some s.objects.length⟩ : UniquePtr)) = false :=
            uOwns_false rfl (by omega)
          rw [hf]
          simp only [Bool.false_eq_true, if_false, Nat.add_zero]
          exact h1 o hb
        · have hoe : o = s.objects.length := by omega
          obtain ⟨hc, hw⟩ := h2 o hb
          have ht : uOwns o (some (⟨some s.objects.length⟩ : UniquePtr)) = true := by
            simp [uOwns, hoe]
          rw [ht]
          simp only [if_true]
          omega
      · intro o ho
        rw [List.length_append, List.length_singleton] at ho
        obtain ⟨hc, hw⟩ := h2 o (by omega)
        refine ⟨hc, ?_⟩
        rw [countP_concat]
        have hf : uOwns o (some (⟨some s.objects.length⟩ : UniquePtr)) = false :=
          uOwns_false rfl (by omega)
        rw [hf]
        simp only [Bool.false_eq_true, if_false, Nat.add_zero]
        exact hw
  | umoveCons i =>
    simp only [ustep] at h
    cases hg : getUnique s i with
    | none => simp only [hg] at h; exact Option.noConfusion h
    | some u =>
      simp only [hg] at h
      cases h
      have hi := getUnique_eq.mp hg
      show UInvOn s.objects ((s.uniques.set i (some ⟨none⟩)) ++ [some u]) s.delLog
      have hcount : ∀ o,
          List.countP (uOwns o) ((s.uniques.set i (some ⟨none⟩)) ++ [some u])
            = List.countP (uOwns o) s.uniques := by
        intro o
        have hbal := countP_set_balance s.uniques i (some u) (some ⟨none⟩) hi (uOwns o)
        have hf : uOwns o (some (⟨none⟩ : UniquePtr)) = false := rfl
        rw [hf] at hbal
        simp only [Bool.false_eq_true, if_false, Nat.add_zero] at hbal
        rw [countP_concat]
        omega
      refine ⟨?_, ?_⟩
      · intro o ho
        rw [hcount]
        exact h1 o ho
      · intro o ho
        obtain ⟨hc, hw⟩ := h2 o ho
        rw [hcount]
        exact ⟨hc, hw⟩
  | umoveAssign i j =>
    simp only [ustep] at h
    by_cases hij : i = j
    · rw [if_pos hij] at h
      cases hg : getUnique s i with
      | none => simp only [hg] at h; exact Option.noConfusion h
      | some u =>
        simp only [hg, Option.map_some'] at h
        cases h
        exact ⟨h1, h2⟩
    · rw [if_neg hij] at h
      cases hgi : getUnique s i with
      | none =>
        cases hgj : getUnique s j with
        | none => simp only [hgi, hgj] at h; exact Option.noConfusion h
        | some uj => simp only [hgi, hgj] at h; exact Option.noConfusion h
      | some ui =>
        cases hgj : getUnique s j with
        | none => simp only [hgi, hgj] at h; exact Option.noConfusion h
        | some uj =>
          simp only [hgi, hgj] at h
          cases hdel : deleteU ui s with
          | none => simp only [hdel] at h; exact Option.noConfusion h
          | some r =>
            simp only [hdel] at h
            obtain ⟨ru, s1⟩ := r
            cases h
            have hi := getUnique_eq.mp hgi
            have hj := getUnique_eq.mp hgj
            have hjmid : (s.uniques.set i (some uj))[j]? = some (some uj) := by
              rw [List.getElem?_set_ne hij]
              exact hj
            have hcount : ∀ o, List.countP (uOwns o)
                ((s.uniques.set i (some uj)).set j (some ⟨none⟩))
                + (if uOwns o (some ui) then 1 else 0)
                = List.countP (uOwns o) s.uniques := by
              intro o
              have hbal1 := countP_set_balance s.uniques i (some ui) (some uj) hi (uOwns o)
              have hbal2 := countP_set_balance (s.uniques.set i (some uj)) j
                (some uj) (some ⟨none⟩) hjmid (uOwns o)
              have hf : uOwns o (some (⟨none⟩ : UniquePtr)) = false := rfl
              rw [hf] at hbal2
              simp only [Bool.false_eq_true, if_false, Nat.add_zero] at hbal2
              omega
            rcases deleteU_char hdel with ⟨hptr, hr⟩ | ⟨o1, v, hptr, hobj, hr⟩
            · have hs1 : s1 = s := congrArg Prod.snd hr
              rw [hs1]
              show UInvOn s.objects
                ((s.uniques.set i (some uj)).set j (some ⟨none⟩)) s.delLog
              refine ⟨?_, ?_⟩
              · intro o ho
                have hc := hcount o
                rw [uOwns_false_of_none hptr] at hc
                simp only [Bool.false_eq_true, if_false, Nat.add_zero] at hc
                have := h1 o ho
                omega
              · intro o ho
                obtain ⟨hcnt, hw⟩ := h2 o ho
                have hc := hcount o
                rw [uOwns_false_of_none hptr] at hc
                simp only [Bool.false_eq_true, if_false, Nat.add_zero] at hc
                exact ⟨hcnt, by omega⟩
            · have hs1 : s1 = { s with objects := s.objects.set o1 none, delLog := s.delLog ++ [o1] } :=
                congrArg Prod.snd hr
              subst hs1
              have ho1lt : o1 < s.objects.length := getElem?_lt_length hobj
              have hown1 : 1 ≤ List.countP (uOwns o1) s.uniques :=
                countP_pos_of_getElem? hi (uOwns_true hptr)
              show UInvOn (s.objects.set o1 none)
                ((s.uniques.set i (some uj)).set j (some ⟨none⟩)) (s.delLog ++ [o1])
              refine ⟨?_, ?_⟩
              · intro o ho
                rw [List.length_set] at ho
                have hbase := h1 o ho
                have hc := hcount o
                rw [count_concat_nat]
                by_cases hoe : o = o1
                · subst hoe
                  rw [uOwns_true hptr] at hc
                  simp only [if_true] at hc
                  rw [if_pos rfl]
                  omega
                · rw [uOwns_false hptr (fun he => hoe he.symm)] at hc
                  simp only [Bool.false_eq_true, if_false, Nat.add_zero] at hc
                  rw [if_neg (fun he => hoe he.symm)]
                  omega
              · intro o ho
                rw [List.length_set] at ho
                obtain ⟨hcnt, hw⟩ := h2 o ho
                have hc := hcount o
                rw [uOwns_false hptr (by omega)] at hc
                simp only [Bool.false_eq_true, if_false, Nat.add_zero] at hc
                constructor
                · rw [count_concat_nat, if_neg (by omega)]
                  omega
                · omega
  | udestroy i =>
    simp only [ustep] at h
    cases hg : getUnique s i with
    | none => simp only [hg] at h; exact Option.noConfusion h
    | some u =>
      simp only [hg] at h
      cases hdel : deleteU u s with
      | none => simp only [hdel] at h; exact Option.noConfusion h
      | some r =>
        simp only [hdel] at h
        obtain ⟨ru, s1⟩ := r
        cases h
        have hi := getUnique_eq.mp hg
        have hcount : ∀ o, List.countP (uOwns o) (s.uniques.set i none)
            + (if uOwns o (some u) then 1 else 0)
            = List.countP (uOwns o) s.uniques := by
          intro o
          have hbal := countP_set_balance s.uniques i (some u) none hi (uOwns o)
          have hf : uOwns o (none : Option UniquePtr) = false := rfl
          rw [hf] at hbal
          simp only [Bool.false_eq_true, if_false, Nat.add_zero] at hbal
          omega
        rcases deleteU_char hdel with ⟨hptr, hr⟩ | ⟨o1, v, hptr, hobj, hr⟩
        · have hs1 : s1 = s := congrArg Prod.snd hr
          rw [hs1]
          show UInvOn s.objects (s.uniques.set i none) s.delLog
          refine ⟨?_, ?_⟩
          · intro o ho
            have hc := hcount o
            rw [uOwns_false_of_none hptr] at hc
            simp only [Bool.false_eq_true, if_false, Nat.add_zero] at hc
            have := h1 o ho
            omega
          · intro o ho
            obtain ⟨hcnt, hw⟩ := h2 o ho
            have hc := hcount o
            rw [uOwns_false_of_none hptr] at hc
            simp only [Bool.false_eq_true, if_false, Nat.add_zero] at hc
            exact ⟨hcnt, by omega⟩
        · have hs1 : s1 = { s with objects := s.objects.set o1 none, delLog := s.delLog ++ [o1] } :=
            congrArg Prod.snd hr
          subst hs1
          have ho1lt : o1 < s.objects.length := getElem?_lt_length hobj
          have hown1 : 1 ≤ List.countP (uOwns o1) s.uniques :=
            countP_pos_of_getElem? hi (uOwns_true hptr)
          show UInvOn (s.objects.set o1 none) (s.uniques.set i none) (s.delLog ++ [o1])
          refine ⟨?_, ?_⟩
          · intro o ho
            rw [List.length_set] at ho
            have hbase := h1 o ho
            have hc := hcount o
            rw [count_concat_nat]
            by_cases hoe : o = o1
            · subst hoe
              rw [uOwns_true hptr] at hc
              simp only [if_true] at hc
              rw [if_pos rfl]
              omega
            · rw [uOwns_false hptr (fun he => hoe he.symm)] at hc
              simp only [Bool.false_eq_true, if_false, Nat.add_zero] at hc
              rw [if_neg (fun he => hoe he.symm)]
              omega
          · intro o ho
            rw [List.length_set] at ho
            obtain ⟨hcnt, hw⟩ := h2 o ho
            have hc := hcount o
            rw [uOwns_false hptr (by omega)] at hc
            simp only [Bool.false_eq_true, if_false, Nat.add_zero] at hc
            constructor
            · rw [count_concat_nat, if_neg (by omega)]
              omega
            · omega

theorem uexecFrom_uInv : ∀ (ops : List UOp) (s s' : UState),
    UInv s → uexecFrom ops s = some s' → UInv s' := by
  intro ops
  induction ops with
  | nil =>
    intro s s' hInv hx
    simp only [uexecFrom] at hx
    cases hx
    exact hInv
  | cons op rest ih =>
    intro s s' hInv hx
    simp only [uexecFrom] at hx
    cases hstep : ustep op s with
    | none => rw [hstep] at hx; exact Option.noConfusion hx
    | some s1 =>
      rw [hstep] at hx
      exact ih s1 s' (ustep_preserves_uInv hInv hstep) hx

theorem uInv_init : UInv UState.init := by
  refine ⟨?_, ?_⟩
  · intro o ho
    simp [UState.init] at ho
  · intro o ho
    exact ⟨rfl, rfl⟩

/-! ### Claim C9: the deleter runs exactly once per owned object -/

/-- C9: in every `UniquePtr` run that reaches a state without undefined
behaviour, each allocated object satisfies: deleter invocations on it
plus live owners of it total exactly one.  Hence the deleter never runs
twice for an object, and as soon as no live owner remains (destruction
or assignment overwrite released it), it has run exactly once. -/
theorem unique_deleter_exactly_once (ops : List UOp) (s : UState)
    (h : uexec ops = some s) (o : Nat) (ho : o < s.objects.length) :
    s.delLog.count o + uOwners s o = 1 ∧ s.delLog.count o ≤ 1 ∧
    (uOwners s o = 0 → s.delLog.count o = 1) := by
  have hInv := uexecFrom_uInv ops UState.init s uInv_init h
  have h1 : s.delLog.count o + uOwners s o = 1 := hInv.1 o ho
  exact ⟨h1, by omega, by omega⟩

/-- Witness for C9: allocate an object in a `UniquePtr` and destroy the
owner; the deleter log records exactly one invocation on the object. -/
theorem unique_deleter_exactly_once_witness :
    uexec [UOp.newU (some 4), UOp.udestroy 0] = some ⟨[none], [none], [0]⟩ ∧
    0 < (⟨[none], [none], [0]⟩ : UState).objects.length ∧
    ((⟨[none], [none], [0]⟩ : UState).delLog.count 0
        + uOwners ⟨[none], [none], [0]⟩ 0 = 1 ∧
      (⟨[none], [none], [0]⟩ : UState).delLog.count 0 ≤ 1 ∧
      (uOwners ⟨[none], [none], [0]⟩ 0 = 0 →
        (⟨[none], [none], [0]⟩ : UState).delLog.count 0 = 1)) :=
  ⟨by decide, by decide,
    unique_deleter_exactly_once [UOp.newU (some 4), UOp.udestroy 0]
      ⟨[none], [none], [0]⟩ (by decide) 0 (by decide)⟩

/-! ### Claim C8: moving a UniquePtr empties the source safely -/

/-- C8: for a non-empty `UniquePtr` at slot `j` owning object `o`:
move construction transfers `o` to the new handle and leaves the source
holding null, and destroying the moved-from source afterwards invokes no
deleter (the log is unchanged); move assignment into a different slot
`i` likewise leaves the source null and the destination owning `o`, and
destroying the moved-from source changes nothing but the handle table. -/
theorem unique_move_semantics (s : UState) (j o : Nat)
    (hj : s.uniques[j]? = some (some ⟨some o⟩)) :
    ustep (UOp.umoveCons j) s
      = some { s with uniques := (s.uniques.set j (some ⟨none⟩)) ++ [some ⟨some o⟩] } ∧
    (ustep (UOp.umoveCons j) s).bind (ustep (UOp.udestroy j))
      = some { s with uniques :=
          ((s.uniques.set j (some ⟨none⟩)) ++ [some (⟨some o⟩ : UniquePtr)]).set j none } ∧
    (∀ (i : Nat) (s2 : UState), i ≠ j → ustep (UOp.umoveAssign i j) s = some s2 →
      s2.uniques[j]? = some (some ⟨none⟩) ∧
      s2.uniques[i]? = some (some ⟨some o⟩) ∧
      ustep (UOp.udestroy j) s2 = some { s2 with uniques := s2.uniques.set j none }) := by
  have hgj : getUnique s j = some ⟨some o⟩ := getUnique_eq.mpr hj
  have hjlt : j < s.uniques.length := getElem?_lt_length hj
  have hmove : ustep (UOp.umoveCons j) s
      = some { s with uniques := (s.uniques.set j (some ⟨none⟩)) ++ [some ⟨some o⟩] } := by
    simp only [ustep, hgj]
  refine ⟨hmove, ?_, ?_⟩
  · rw [hmove]
    have hLj : ((s.uniques.set j (some ⟨none⟩)) ++ [some ⟨some o⟩])[j]?
        = some (some ⟨none⟩) := by
      rw [List.getElem?_append_left (by rw [List.length_set]; exact hjlt)]
      exact List.getElem?_set_eq_of_lt _ hjlt
    have hgj2 : getUnique
        { s with uniques := (s.uniques.set j (some ⟨none⟩)) ++ [some ⟨some o⟩] } j
        = some ⟨none⟩ := getUnique_eq.mpr hLj
    simp only [Option.some_bind, ustep, hgj2, deleteU]
  · intro i s2 hij hstep
    simp only [ustep, if_neg hij] at hstep
    cases hgi : getUnique s i with
    | none => simp only [hgi, hgj] at hstep; exact Option.noConfusion hstep
    | some ui =>
      simp only [hgi, hgj] at hstep
      cases hdel : deleteU ui s with
      | none => simp only [hdel] at hstep; exact Option.noConfusion hstep
      | some r =>
        simp only [hdel] at hstep
        obtain ⟨ru, s1⟩ := r
        cases hstep
        have hs1u : s1.uniques = s.uniques := by
          rcases deleteU_char hdel with ⟨_, hr⟩ | ⟨o1, v, _, _, hr⟩
          · have hs1 : s1 = s := congrArg Prod.snd hr
            rw [hs1]
          · have hs1 : s1 = { s with objects := s.objects.set o1 none, delLog := s.delLog ++ [o1] } :=
              congrArg Prod.snd hr
            rw [hs1]
        have hjlt2 : j < (s1.uniques.set i (some ⟨some o⟩)).length := by
          rw [List.length_set, hs1u]
          exact hjlt
        have hilt : i < s1.uniques.length := by
          rw [hs1u]
          exact getElem?_lt_length (getUnique_eq.mp hgi)
        have hu2j : ((s1.uniques.set i (some ⟨some o⟩)).set j (some ⟨none⟩))[j]?
            = some (some ⟨none⟩) := List.getElem?_set_eq_of_lt _ hjlt2
        have hu2i : ((s1.uniques.set i (some ⟨some o⟩)).set j (some ⟨none⟩))[i]?
            = some (some ⟨some o⟩) := by
          rw [List.getElem?_set_ne (fun he => hij he.symm)]
          exact List.getElem?_set_eq_of_lt _ hilt
        refine ⟨hu2j, hu2i, ?_⟩
        have hg2 : getUnique
            { s1 with uniques := (s1.uniques.set i (some ⟨some o⟩)).set j (some ⟨none⟩) } j
            = some ⟨none⟩ := getUnique_eq.mpr hu2j
        simp only [ustep, hg2, deleteU]

/-- Witness for C8: a concrete two-handle state; moving handle 1 out by
construction and by assignment leaves it empty, the destination owns the
object, and destroying the moved-from handle leaves the deleter log
unchanged. -/
theorem unique_move_semantics_witness :
    ustep (UOp.umoveCons 1)
        ⟨[some 5, some 6], [some ⟨some 0⟩, some ⟨some 1⟩], []⟩
      = some ⟨[some 5, some 6], [some ⟨some 0⟩, some ⟨none⟩, some ⟨some 1⟩], []⟩ ∧
    (ustep (UOp.umoveCons 1)
        ⟨[some 5, some 6], [some ⟨some 0⟩, some ⟨some 1⟩], []⟩).bind
        (ustep (UOp.udestroy 1))
      = some ⟨[some 5, some 6], [some ⟨some 0⟩, none, some ⟨some 1⟩], []⟩ ∧
    ((⟨[none, some 6], [some ⟨some 1⟩, some ⟨none⟩], [0]⟩ : UState).uniques[1]?
        = some (some ⟨none⟩) ∧
      (⟨[none, some 6], [some ⟨some 1⟩, some ⟨none⟩], [0]⟩ : UState).uniques[0]?
        = some (some ⟨some 1⟩) ∧
      ustep (UOp.udestroy 1) ⟨[none, some 6], [some ⟨some 1⟩, some ⟨none⟩], [0]⟩
        = some ⟨[none, some 6], [some ⟨some 1⟩, none], [0]⟩) := by
  have h := unique_move_semantics
    ⟨[some 5, some 6], [some ⟨some 0⟩, some ⟨some 1⟩], []⟩ 1 1 (by decide)
  exact ⟨h.1, h.2.1,
    h.2.2 0 ⟨[none, some 6], [some ⟨some 1⟩, some ⟨none⟩], [0]⟩
      (by decide) (by decide)⟩

end SmartPointers
